import Mathlib

/-!
Verification development for the daily_paper feed pipeline
(`src/daily_paper/utils.py`, `fetch.py`, `summarize.py`).

Conventions of the shallow embedding:
* Python `str` values are Lean `String`s (or `List Char` where character-level
  reasoning is needed); Python floats arising from the score arithmetic are
  modelled as `ℚ` (every constant involved — 2.0, 1.0, 0.75, n/240, n/220 —
  is exactly representable, and the comparisons performed are therefore
  float-exact).
* Python `datetime` values are modelled as integer timestamps in seconds
  (`datetime` arithmetic is exact integer arithmetic); `timedelta(hours=h)`
  is `h * 3600`, `timedelta(minutes=m)` is `m * 60`.
* Facilities that live outside the repository (Python's `difflib` ratio,
  the `re` regex engine, `urllib` hostname extraction) are oracle
  parameters collected in `PyOracles`; every confirmed theorem below is
  proved for an arbitrary oracle, and counterexamples instantiate it
  concretely on traces that never consult it.
-/

namespace DailyPaper

/-! ## Python text primitives (utils.compact_text and friends) -/

/-- Whitespace characters recognised by Python's `str.strip` and the regex
`\s` on ASCII text. -/
def pyIsSpace (c : Char) : Bool :=
  c = ' ' || c = '\t' || c = '\n' || c = '\r' || c = '\x0b' || c = '\x0c'

/-- Python `str.strip()` on a character list. -/
def pyStripChars (l : List Char) : List Char :=
  ((l.dropWhile pyIsSpace).reverse.dropWhile pyIsSpace).reverse

/-- Python `str.strip()`. -/
def pyStrip (s : String) : String :=
  ⟨pyStripChars s.data⟩

/-- Python `str.rstrip()` on a character list. -/
def pyRStripChars (l : List Char) : List Char :=
  (l.reverse.dropWhile pyIsSpace).reverse

/-- Helper for `collapseWs`; the flag records whether the previous character
belonged to the current whitespace run. -/
def collapseWsAux : Bool → List Char → List Char
  | _, [] => []
  | inRun, c :: rest =>
    if pyIsSpace c then
      if inRun then collapseWsAux true rest
      else ' ' :: collapseWsAux true rest
    else c :: collapseWsAux false rest

/-- Replacement of every maximal whitespace run by a single space:
`re.sub(r"\s+", " ", text)`. -/
def collapseWs (l : List Char) : List Char :=
  collapseWsAux false l

/-- Python `"\n".join(parts)`. -/
def joinNewline : List String → String
  | [] => ""
  | [p] => p
  | p :: rest => p ++ "\n" ++ joinNewline rest

/-- Embedding of `utils.compact_text`: strip the truthy parts, join with
newlines, strip, collapse whitespace runs to single spaces, and truncate to
`max_chars` with a `…` suffix.  (`max_chars` is a positive constant at every
call site, so the Python slice `[: max_chars - 1]` is `List.take (maxChars - 1)`.) -/
def compactText (parts : List String) (maxChars : ℕ) : String :=
  let combined := pyStrip (joinNewline ((parts.filter (· ≠ "")).map pyStrip))
  let combined : List Char := collapseWs combined.data
  if combined.length ≤ maxChars then ⟨combined⟩
  else ⟨pyRStripChars (combined.take (maxChars - 1)) ++ ['…']⟩

/-- Python `str.lower()` (ASCII-faithful). -/
def pyLower (s : String) : String :=
  ⟨s.data.map Char.toLower⟩

/-- Check whether `pat` begins `l` (helper for the substring test). -/
def listStartsWith : List Char → List Char → Bool
  | [], _ => true
  | _ :: _, [] => false
  | p :: ps, c :: cs => p = c && listStartsWith ps cs

/-- Python's substring operator `needle in hay` on character lists. -/
def listContainsSub (pat : List Char) : List Char → Bool
  | [] => listStartsWith pat []
  | c :: cs => listStartsWith pat (c :: cs) || listContainsSub pat cs

/-- Python's substring operator `needle in hay`. -/
def containsSub (hay needle : String) : Bool :=
  listContainsSub needle.data hay.data

/-! ## Records (fetch.FeedEntry) -/

/-- Embedding of `fetch.FeedEntry`.  `published` is the ISO string field
(`""` when no publish time was parsed), exactly as the dataclass stores it. -/
structure FeedEntry where
  topic : String
  title : String
  link : String
  published : String
  src : String
  feed_name : String
  source_group : String
  summary : String
  full_text : Option String
deriving DecidableEq, Repr

/-- Convenient default record (used only to totalise dictionary lookups that
Python performs on keys known to be present). -/
def defaultEntry : FeedEntry :=
  ⟨"", "", "", "", "", "", "", "", none⟩

instance : Inhabited FeedEntry := ⟨defaultEntry⟩

/-! ## Quality scores -/

/-- Embedding of `fetch._entry_quality_score`: +2.0 when the publish string is
non-empty, plus `min(len(compact_text([summary], 240)), 240) / 240`. -/
def entryQualityScore (e : FeedEntry) : ℚ :=
  let base : ℚ := if e.published ≠ "" then 2 else 0
  base + ((min (compactText [e.summary] 240).length 240 : ℕ) : ℚ) / 240

/-- Embedding of `fetch._is_better_entry`. -/
def isBetterEntry (candidate existing : FeedEntry) : Bool :=
  entryQualityScore existing < entryQualityScore candidate

/-- Embedding of `summarize.EntryMeta`. -/
structure EntryMeta where
  domain : String
  summary_length : ℕ
  is_low_info : Bool
  is_admin : Bool
  has_published : Bool
deriving DecidableEq, Repr

/-- The `summarize.ADMIN_KEYWORDS` tuple. -/
def ADMIN_KEYWORDS : List String :=
  ["newsletter", "podcast", "opinion", "sponsored", "advertisement",
   "press release", "webinar", "event", "roundup", "digest", "transcript"]

/-- Embedding of `summarize._entry_meta`; `getHostname` is the
`urllib`-backed `utils.get_hostname` oracle. -/
def entryMeta (getHostname : String → String) (e : FeedEntry) : EntryMeta :=
  let summary := compactText [e.summary] 280
  let combined := pyLower (e.title ++ " " ++ summary)
  { domain := getHostname e.link
    summary_length := summary.length
    is_low_info := summary.length < 60
    is_admin := ADMIN_KEYWORDS.any (fun k => containsSub combined k)
    has_published := e.published ≠ "" }

/-- Embedding of `summarize._entry_score`. -/
def entryScore (m : EntryMeta) : ℚ :=
  (if m.has_published then 1 else 0)
    + ((min m.summary_length 220 : ℕ) : ℚ) / 220
    - (if m.is_low_info then 1 else 0)
    - (if m.is_admin then 3/4 else 0)

/-- Definition following the specification's words (§3 QualityScore), for
comparison with the two scorers the code actually uses: +2.0 when a publish
time is present, plus `min(cleaned length, 220)/220`, −1.0 when the cleaned
summary is shorter than 60 characters, −0.75 when title+summary contain an
administrative keyword.  Cleaning is the program's own `compact_text` pass. -/
def specQualityScore (e : FeedEntry) : ℚ :=
  let summary := compactText [e.summary] 280
  let combined := pyLower (e.title ++ " " ++ summary)
  (if e.published ≠ "" then 2 else 0)
    + ((min summary.length 220 : ℕ) : ℚ) / 220
    - (if summary.length < 60 then 1 else 0)
    - (if ADMIN_KEYWORDS.any (fun k => containsSub combined k) then 3/4 else 0)

/-! ## Lexical similarity engine (utils.title_similarity and friends)

Python's `difflib.SequenceMatcher(None, a, b).ratio()` lives outside the
repository; it is modelled as an oracle `ratio : String → String → ℚ`.
The documented contract of `ratio` is that it returns a value in `[0, 1]`;
theorems that need it take that bound as a hypothesis. -/

/-- Character kept by `utils._normalize_text` (the regex `[^a-z0-9\s]`
replaces everything else with a space; input is already lower-cased). -/
def normChar (c : Char) : Char :=
  if ('a' ≤ c ∧ c ≤ 'z') ∨ ('0' ≤ c ∧ c ≤ '9') ∨ pyIsSpace c then c else ' '

/-- Embedding of `utils._normalize_text`: lower-case, replace every
non-alphanumeric character by a space, collapse whitespace, strip. -/
def normalizeText (s : String) : String :=
  ⟨pyStripChars (collapseWs ((s.data.map Char.toLower).map normChar))⟩

/-- Helper for Python `str.split()` (split on whitespace runs, dropping
empties); `acc` holds the current token reversed. -/
def pySplitWsAux : List Char → List Char → List (List Char)
  | [], acc => if acc = [] then [] else [acc.reverse]
  | c :: rest, acc =>
    if pyIsSpace c then
      if acc = [] then pySplitWsAux rest []
      else acc.reverse :: pySplitWsAux rest []
    else pySplitWsAux rest (c :: acc)

/-- Python `str.split()` with no separator argument. -/
def pySplitWs (l : List Char) : List (List Char) :=
  pySplitWsAux l []

/-- Python `set(s.split())`. -/
def tokensOf (s : String) : Finset String :=
  ((pySplitWs s.data).map (fun l => (⟨l⟩ : String))).toFinset

/-- Embedding of `utils._token_sequence_similarity`: the maximum of the
token-set overlap ratio and the `difflib` ratio oracle. -/
def tokenSequenceSimilarity (ratio : String → String → ℚ) (ln rn : String) : ℚ :=
  let lt := tokensOf ln
  let rt := tokensOf rn
  let overlap : ℚ := ((lt ∩ rt).card : ℚ) / ((max 1 (min lt.card rt.card) : ℕ) : ℚ)
  max overlap (ratio ln rn)

/-- Embedding of `utils.title_similarity`. -/
def titleSimilarity (ratio : String → String → ℚ) (l r : String) : ℚ :=
  let ln := normalizeText l
  let rn := normalizeText r
  if ln = "" ∨ rn = "" then 0 else tokenSequenceSimilarity ratio ln rn

/-- Embedding of `utils.text_similarity` (same body as `title_similarity`). -/
def textSimilarity (ratio : String → String → ℚ) (l r : String) : ℚ :=
  let ln := normalizeText l
  let rn := normalizeText r
  if ln = "" ∨ rn = "" then 0 else tokenSequenceSimilarity ratio ln rn

/-- Python slice `s[:n]`. -/
def takeStr (s : String) (n : ℕ) : String :=
  ⟨s.data.take n⟩

/-- Embedding of `utils.weighted_story_similarity`.  The float weights 0.50,
0.50, 0.10 are modelled by their decimal values. -/
def weightedStorySimilarity (ratio : String → String → ℚ)
    (tl tr sl sr : String) (cl cr : Option String) : ℚ :=
  let ws1 : List (ℚ × ℚ) := [(titleSimilarity ratio tl tr, 1/2)]
  let ws2 := if pyStrip sl ≠ "" ∧ pyStrip sr ≠ "" then
      ws1 ++ [(textSimilarity ratio sl sr, 1/2)] else ws1
  let ws3 := match cl, cr with
    | some a, some b =>
      if a ≠ "" ∧ b ≠ "" then
        ws2 ++ [(textSimilarity ratio (takeStr a 600) (takeStr b 600), 1/10)]
      else ws2
    | _, _ => ws2
  let total := (ws3.map Prod.snd).sum
  if total = 0 then 0 else (ws3.map (fun p => p.1 * p.2)).sum / total

/-- Embedding of `utils.metadata_overlap_ratio`. -/
def metadataOverlapRatio (l r : Finset String) : ℚ :=
  if l = ∅ ∨ r = ∅ then 0
  else ((l ∩ r).card : ℚ) / ((min l.card r.card : ℕ) : ℚ)

/-- Constant similarity oracle used for concrete evaluations in which the
`difflib` ratio is never consulted. -/
def ratioZero : String → String → ℚ := fun _ _ => 0

/-- Constant ratio oracle satisfying the documented `[0, 1]` bound. -/
def ratioOne : String → String → ℚ := fun _ _ => 1

/-- Concrete record exercising the score definitions: a dated entry with an
empty summary. -/
def scoreProbe : FeedEntry :=
  { topic := "World", title := "Headline", link := "https://example.com/a"
    published := "2024-01-01T00:00:00+00:00", src := "Feed", feed_name := "Feed"
    source_group := "Feed", summary := "", full_text := none }

/-! ## URL canonicalizer (utils.normalize_url)

`urllib.parse.urlparse` is Python standard-library code; the model operates
on its structured result (`PyUrl`, one field per component the code reads),
and the percent-quoting performed by `urllib.parse.urlencode` is an oracle
`quote`.  Re-serialization mirrors `urllib.parse.urlunparse`. -/

/-- Parsed URL as produced by `urllib.parse.urlparse` and consumed by
`utils.normalize_url` (`hostname` is `[]` when absent, mirroring
`parsed.hostname or ""`; `query` is the `parse_qsl` pair list). -/
structure PyUrl where
  scheme : List Char
  hostname : List Char
  port : Option Nat
  path : List Char
  params : List Char
  query : List (List Char × List Char)
  fragment : List Char
deriving DecidableEq, Repr

/-- The `utils.TRACKING_PARAMS` deny-list. -/
def TRACKING_PARAMS : List (List Char) :=
  ["gclid".data, "fbclid".data, "mc_cid".data, "mc_eid".data,
   "ref".data, "source".data, "spm".data]

/-- Embedding of `utils._is_tracking_param`. -/
def isTrackingParam (key : List Char) : Bool :=
  let lowered := key.map Char.toLower
  listStartsWith "utm_".data lowered || TRACKING_PARAMS.contains lowered

/-- Python `path.rstrip("/")`: drop every trailing slash. -/
def rstripSlashes (l : List Char) : List Char :=
  (l.reverse.dropWhile (· = '/')).reverse

/-- Path normalization inside `utils.normalize_url`: missing path becomes
`/`; a path that ends with `/` and is not exactly `/` has its trailing
slashes stripped. -/
def normPath (p : List Char) : List Char :=
  let p1 := if p = [] then ['/'] else p
  if p1.reverse.head? = some '/' ∧ p1 ≠ ['/'] then rstripSlashes p1 else p1

/-- Decimal rendering of the port (f-string interpolation of an int). -/
def natChars (n : Nat) : List Char :=
  (toString n).data

/-- Embedding of `urllib.parse.urlencode` on the cleaned pair list:
ampersand-joined `quote(k)=quote(v)`, with the quoting oracle. -/
def urlencodePairs (quote : List Char → List Char) :
    List (List Char × List Char) → List Char
  | [] => []
  | [kv] => quote kv.1 ++ '=' :: quote kv.2
  | kv :: rest => quote kv.1 ++ '=' :: quote kv.2 ++ '&' :: urlencodePairs quote rest

/-- Embedding of `urllib.parse.urlunparse` (via `urlunsplit`) on the
components `normalize_url` re-serializes. -/
def urlunparse (scheme netloc path params query fragment : List Char) : List Char :=
  let url0 := if params ≠ [] then path ++ ';' :: params else path
  let url1 :=
    if netloc ≠ [] ∨ url0.take 2 = ['/', '/'] then
      '/' :: '/' :: netloc ++ (if url0 ≠ [] ∧ url0.head? ≠ some '/' then '/' :: url0 else url0)
    else url0
  let url2 := if scheme ≠ [] then scheme ++ ':' :: url1 else url1
  let url3 := if query ≠ [] then url2 ++ '?' :: query else url2
  if fragment ≠ [] then url3 ++ '#' :: fragment else url3

/-- Embedding of `utils.normalize_url` on the parsed URL: force scheme to
https for http/https/empty, lower-case the host, keep a non-default port,
normalize the path, drop tracking query parameters, drop the fragment. -/
def normalizeUrl (quote : List Char → List Char) (u : PyUrl) : List Char :=
  let scheme :=
    if u.scheme = [] ∨ u.scheme = "http".data ∨ u.scheme = "https".data
    then "https".data else u.scheme
  let hostname := u.hostname.map Char.toLower
  let netloc :=
    match u.port with
    | some p => if p ≠ 0 ∧ p ≠ 80 ∧ p ≠ 443 then hostname ++ ':' :: natChars p else hostname
    | none => hostname
  let path := normPath u.path
  let cleaned := urlencodePairs quote (u.query.filter (fun kv => ¬ isTrackingParam kv.1))
  urlunparse scheme netloc path u.params cleaned []

/-- Root URL `https://example.com/`. -/
def urlRoot : PyUrl :=
  ⟨"https".data, "example.com".data, none, "/".data, [], [], []⟩

/-- Root URL with one extra trailing slash: `https://example.com//`. -/
def urlRootSlash : PyUrl :=
  ⟨"https".data, "example.com".data, none, "//".data, [], [], []⟩

/-- Probe URL with a non-root path, used by the C5 witness. -/
def urlProbe : PyUrl :=
  ⟨"https".data, "Example.com".data, some 443, "/news/a".data, [],
   [("a".data, "1".data)], []⟩

/-- Query list with a tracking parameter, for the C5 witness. -/
def queryTracked : List (List Char × List Char) :=
  [("a".data, "1".data), ("utm_campaign".data, "x".data), ("gclid".data, "g".data)]

/-- The same query list with the tracking parameters removed. -/
def queryClean : List (List Char × List Char) :=
  [("a".data, "1".data)]

/-! ## Dedup registry (fetch.py)

External facilities used inside the registry and the selection engine are
collected in one oracle pack: `ratio` is difflib's `SequenceMatcher.ratio`,
`extractMeta` the regex-backed `utils.extract_comparison_metadata`,
`getHostname` the urllib-backed `utils.get_hostname`, and the two `search`
fields the regex searches of the Local News scorer.  Confirmed theorems hold
for an arbitrary pack; counterexamples instantiate it on traces that never
consult the unknown parts.

Timestamps are integers (seconds), mirroring `datetime`'s exact integer
arithmetic; `timedelta(hours=h)` is `h * 3600` and `timedelta(minutes=m)`
is `m * 60`. -/

/-- Oracle pack for Python facilities outside the repository. -/
structure PyOracles where
  ratio : String → String → ℚ
  extractMeta : String → Finset String
  getHostname : String → String
  searchOtherStateDateline : String → Bool
  searchMontanaZip : String → Bool

/-- Concrete oracle pack for counterexample traces: the hostname of a link
is the link itself (so distinct links are distinct hostnames), similarity is
0, metadata extraction is empty. -/
def oraclesId : PyOracles :=
  ⟨fun _ _ => 0, fun _ => ∅, fun s => s, fun _ => false, fun _ => false⟩

/-- Embedding of `fetch.SeenEntry`. -/
structure SeenEntry where
  entry : FeedEntry
  canonical_url : String
  hostname : String
  published : Option ℤ
  metadata : Finset String
deriving DecidableEq

/-- Registry state threaded through `fetch._register_entry`: the canonical
URL index `seen_urls`, the `seen_entries` list, and the per-topic output
buckets.  The buckets are modelled as a total map (`fetch_feeds` pre-creates
a key for every active topic, so `entries_by_topic[topic]` never fails). -/
structure RegState where
  seen_urls : Finset String
  seen_entries : List SeenEntry
  buckets : String → List FeedEntry

/-- The empty registry (`fetch_feeds` locals before the loop). -/
def initState : RegState :=
  ⟨∅, [], fun _ => []⟩

/-- Result of `fetch._register_entry`. -/
inductive Outcome
  | added
  | replaced
  | skipped
deriving DecidableEq, Repr

/-- Keep-condition of `fetch._prune_seen_entries`:
`not seen.published or seen.published >= cutoff`. -/
def pruneKeep (published : Option ℤ) (cutoff : ℤ) : Bool :=
  match published with
  | none => true
  | some t => cutoff ≤ t

/-- Embedding of `fetch._prune_seen_entries`. -/
def pruneSeenEntries (seen : List SeenEntry) (now : ℤ) (maxAgeHours : ℤ) : List SeenEntry :=
  let cutoff := now - maxAgeHours * 3600
  seen.filter (fun s => pruneKeep s.published cutoff)

/-- Embedding of `fetch._find_seen_by_url`. -/
def findSeenByUrl (seen : List SeenEntry) (url : String) : Option SeenEntry :=
  seen.find? (fun s => s.canonical_url = url)

/-- Embedding of `fetch._within_recent_minutes`: vacuously true when either
timestamp is missing. -/
def withinRecentMinutes (l r : Option ℤ) (maxMinutes : ℤ) : Bool :=
  match l, r with
  | some a, some b => |a - b| ≤ maxMinutes * 60
  | _, _ => true

/-- Embedding of `fetch._within_recent_window`: vacuously true when either
timestamp is missing. -/
def withinRecentWindow (l r : Option ℤ) (maxAgeHours : ℤ) : Bool :=
  match l, r with
  | some a, some b => |a - b| ≤ maxAgeHours * 3600
  | _, _ => true

/-- Embedding of `fetch._is_translation_duplicate`. -/
def isTranslationDuplicate (curPub seenPub : Option ℤ)
    (curMeta seenMeta : Finset String) (metadataThreshold : ℚ) (maxMinutes : ℤ) : Bool :=
  if withinRecentMinutes curPub seenPub maxMinutes then
    decide (metadataThreshold ≤ metadataOverlapRatio curMeta seenMeta)
  else false

/-- Embedding of `fetch._build_story_metadata`. -/
def buildStoryMetadata (pyo : PyOracles) (item : FeedEntry) : Finset String :=
  let parts := [item.title, item.summary] ++
    (match item.full_text with
     | some ft => if ft ≠ "" then [takeStr ft 600] else []
     | none => [])
  pyo.extractMeta (joinNewline (parts.filter (· ≠ "")))

/-- Embedding of `fetch._find_near_duplicate` with its default thresholds
(weighted 0.82, translation metadata 0.65, translation window 180 min). -/
def findNearDuplicate (pyo : PyOracles) (seen : List SeenEntry) (item : FeedEntry)
    (hostname : String) (publishedDt : Option ℤ) (maxAgeHours : ℤ)
    (metadata : Finset String) : Option SeenEntry :=
  seen.find? (fun s =>
    s.hostname = hostname &&
    withinRecentWindow publishedDt s.published maxAgeHours &&
    (decide ((82 : ℚ) / 100 ≤ weightedStorySimilarity pyo.ratio item.title s.entry.title
        item.summary s.entry.summary item.full_text s.entry.full_text) ||
      isTranslationDuplicate publishedDt s.published metadata s.metadata (65 / 100) 180))

/-- Replacement of the first occurrence of `old` (the Python code mutates in
place the single object returned by the find helpers). -/
def replaceFirst (old new : SeenEntry) : List SeenEntry → List SeenEntry
  | [] => []
  | s :: rest => if s = old then new :: rest else s :: replaceFirst old new rest

/-- Pointwise update of one topic bucket. -/
def updateBucket (b : String → List FeedEntry) (topic : String)
    (f : List FeedEntry → List FeedEntry) : String → List FeedEntry :=
  fun t => if t = topic then f (b t) else b t

/-- Embedding of `fetch._replace_entry`; `seen` is the already-pruned
seen-entry list containing `existing`. -/
def replaceEntry (pyo : PyOracles) (st : RegState) (seen : List SeenEntry)
    (existing : SeenEntry) (replacement : FeedEntry) (publishedDt : Option ℤ)
    (metadata : Finset String) : RegState :=
  let buckets1 := updateBucket st.buckets existing.entry.topic (fun l => l.erase existing.entry)
  let urls1 := st.seen_urls.erase existing.canonical_url
  let newSeen : SeenEntry :=
    ⟨replacement, replacement.link, pyo.getHostname replacement.link, publishedDt, metadata⟩
  let entries1 := replaceFirst existing newSeen seen
  let urls2 := insert replacement.link urls1
  let buckets2 := updateBucket buckets1 replacement.topic (fun l => l ++ [replacement])
  ⟨urls2, entries1, buckets2⟩

/-- Embedding of `fetch._register_entry`. -/
def registerEntry (pyo : PyOracles) (dryRun : Bool) (st : RegState) (item : FeedEntry)
    (publishedDt : Option ℤ) (now : ℤ) (compareWindowHours pruneWindowHours : ℤ) :
    Outcome × RegState :=
  if dryRun then
    (Outcome.added,
      { st with buckets := updateBucket st.buckets item.topic (fun l => l ++ [item]) })
  else
    let seen1 := pruneSeenEntries st.seen_entries now pruneWindowHours
    let hostname := pyo.getHostname item.link
    let metadata := buildStoryMetadata pyo item
    match findSeenByUrl seen1 item.link with
    | some existing =>
      if isBetterEntry item existing.entry then
        (Outcome.replaced, replaceEntry pyo st seen1 existing item publishedDt metadata)
      else
        (Outcome.skipped, { st with seen_entries := seen1 })
    | none =>
      if item.link ∈ st.seen_urls then
        (Outcome.skipped, { st with seen_entries := seen1 })
      else
        match findNearDuplicate pyo seen1 item hostname publishedDt
            compareWindowHours metadata with
        | some nearMatch =>
          if isBetterEntry item nearMatch.entry then
            (Outcome.replaced, replaceEntry pyo st seen1 nearMatch item publishedDt metadata)
          else
            (Outcome.skipped, { st with seen_entries := seen1 })
        | none =>
          (Outcome.added,
            { seen_urls := insert item.link st.seen_urls
              seen_entries := seen1 ++ [⟨item, item.link, hostname, publishedDt, metadata⟩]
              buckets := updateBucket st.buckets item.topic (fun l => l ++ [item]) })

/-- States reachable from the empty registry by any sequence of register
calls. -/
inductive Reachable (pyo : PyOracles) : RegState → Prop
  | init : Reachable pyo initState
  | step (st : RegState) (dryRun : Bool) (item : FeedEntry) (publishedDt : Option ℤ)
      (now : ℤ) (cw pw : ℤ) : Reachable pyo st →
      Reachable pyo (registerEntry pyo dryRun st item publishedDt now cw pw).2

/-- Stale record for the C1 counterexample trace (registered with a publish
time 25 hours old). -/
def staleItem : FeedEntry :=
  { topic := "t", title := "Old story", link := "https://a.example/old"
    published := "2024-01-01T00:00:00+00:00", src := "A", feed_name := "A"
    source_group := "A", summary := "old", full_text := none }

/-- Fresh record for the C1 counterexample trace. -/
def freshItem : FeedEntry :=
  { topic := "t", title := "New story", link := "https://b.example/new"
    published := "2024-01-02T00:59:00+00:00", src := "B", feed_name := "B"
    source_group := "B", summary := "new", full_text := none }

/-- State after registering the stale record into the empty registry
(`now = 0`, windows 24 h; the stale publish time is −90000 s = 25 h ago). -/
def c1State1 : RegState :=
  (registerEntry oraclesId false initState staleItem (some (-90000)) 0 24 24).2

/-- State after then registering the fresh record: the prune pass drops the
stale seen-record but leaves its URL in `seen_urls`. -/
def c1State2 : RegState :=
  (registerEntry oraclesId false c1State1 freshItem (some (-60)) 0 24 24).2

/-! ## Selection engine (summarize.py)

`select_top_items` builds a prompt and calls
`OpenAIClient.chat_completion`; that call is external I/O and is modelled by
an `Except Unit String` input: `Except.ok response` is the ranker's returned
text, `Except.error ()` a raised exception (`chat_completion` raises on
timeout after retries, on non-200 responses and on malformed payloads, and
`select_top_items` wraps none of it in try/except, so the model propagates
the error).  Python's Timsort (`sorted(...)`/`list.sort` with
`reverse=True`) is modelled by a stable insertion sort: both are stable
sorts for a total preorder, hence produce identical output. -/

/-- Python string `<` (code-point lexicographic). -/
def charListLt : List Char → List Char → Bool
  | [], [] => false
  | [], _ :: _ => true
  | _ :: _, [] => false
  | a :: as, b :: bs => if a < b then true else if b < a then false else charListLt as bs

/-- Python string `<=`. -/
def strLeB (s t : String) : Bool :=
  !(charListLt t.data s.data)

/-- Python tuple `<=` on a (float, str) sort key. -/
def pairKeyLe (a b : ℚ × String) : Bool :=
  decide (a.1 < b.1) || (decide (a.1 = b.1) && strLeB a.2 b.2)

/-- Python tuple `<=` on a (float, float, str) sort key. -/
def tripleKeyLe (a b : ℚ × ℚ × String) : Bool :=
  decide (a.1 < b.1) || (decide (a.1 = b.1) && pairKeyLe a.2 b.2)

/-- Stable insertion into a sorted list: `x` goes before the first `y` it
may precede (`le x y`). -/
def insertSorted (le : FeedEntry → FeedEntry → Bool) (x : FeedEntry) :
    List FeedEntry → List FeedEntry
  | [] => [x]
  | y :: ys => if le x y then x :: y :: ys else y :: insertSorted le x ys

/-- Stable sort modelling Python's `sorted` (see section comment). -/
def sortBy (le : FeedEntry → FeedEntry → Bool) : List FeedEntry → List FeedEntry
  | [] => []
  | x :: xs => insertSorted le x (sortBy le xs)

/-- `summarize.LOCAL_NEWS_TOPIC`. -/
def LOCAL_NEWS_TOPIC : String := "Local News"

/-- `summarize.LOCAL_NEWS_MIN_SCORE`. -/
def LOCAL_NEWS_MIN_SCORE : ℚ := 1

/-- `summarize.LOCAL_STRONG_POSITIVE_TERMS`. -/
def LOCAL_STRONG_POSITIVE_TERMS : List String :=
  ["polson", "lake county", "kalispell", "flathead", "ronan", "pablo",
   "bigfork", "columbia falls", "whitefish", "mission valley"]

/-- `summarize.LOCAL_MEDIUM_POSITIVE_TERMS`. -/
def LOCAL_MEDIUM_POSITIVE_TERMS : List String :=
  ["montana", " mt ", " mt."]

/-- `summarize.LOCAL_OVERRIDE_TERMS`. -/
def LOCAL_OVERRIDE_TERMS : List String :=
  ["legislation", "legislature", "bill", "wildfire", "fire season", "weather",
   "school funding", "education funding", "health care policy",
   "healthcare policy", "medicaid"]

/-- Embedding of `summarize._local_news_relevance_score` (the two regex
searches are the oracle fields). -/
def localNewsRelevanceScore (pyo : PyOracles) (e : FeedEntry) : ℚ :=
  let combined := pyLower (e.title ++ " " ++ e.summary)
  let score : ℚ :=
    3 * ((LOCAL_STRONG_POSITIVE_TERMS.filter (fun t => containsSub combined t)).length : ℚ)
  let score := if LOCAL_MEDIUM_POSITIVE_TERMS.any (fun t => containsSub combined t)
    then score + 1 else score
  let score := if pyo.searchMontanaZip combined then score + 1 else score
  let hasMt := containsSub combined "montana" || containsSub combined " mt " ||
    containsSub combined " mt."
  let hasOther := pyo.searchOtherStateDateline combined
  let score := if hasOther && !hasMt then score - 4 else score
  let hasStatewide := LOCAL_OVERRIDE_TERMS.any (fun t => containsSub combined t)
  if hasMt && hasStatewide then max score LOCAL_NEWS_MIN_SCORE + 2 else score

/-- The `meta_by_link` dictionary of `select_top_items` as a lookup function
(a Python dict comprehension keeps the last entry for a duplicated key,
hence the reversed search; absent keys are impossible at the call sites and
are totalised by `defaultEntry`). -/
def metaByLink (pyo : PyOracles) (entries : List FeedEntry) (link : String) : EntryMeta :=
  entryMeta pyo.getHostname ((entries.reverse.find? (fun e => e.link = link)).getD defaultEntry)

/-- Embedding of `summarize._rank_entries`: quality-descending,
title-ascending order (with the Local News relevance score prepended for
that topic; its by-link dictionary is modelled like `meta_by_link`). -/
def rankEntries (pyo : PyOracles) (topic : String) (entries : List FeedEntry)
    (meta : String → EntryMeta) : List FeedEntry :=
  if topic = LOCAL_NEWS_TOPIC then
    let localScores : String → ℚ := fun link =>
      localNewsRelevanceScore pyo ((entries.reverse.find? (fun e => e.link = link)).getD defaultEntry)
    sortBy (fun a b => tripleKeyLe
      (localScores b.link, entryScore (meta b.link), pyLower b.title)
      (localScores a.link, entryScore (meta a.link), pyLower a.title)) entries
  else
    sortBy (fun a b => pairKeyLe
      (entryScore (meta b.link), pyLower b.title)
      (entryScore (meta a.link), pyLower a.title)) entries

/-- Embedding of `summarize._filter_local_news_entries`. -/
def filterLocalNewsEntries (pyo : PyOracles) (entries : List FeedEntry) : List FeedEntry :=
  let kept := entries.filter (fun e =>
    decide (LOCAL_NEWS_MIN_SCORE ≤ localNewsRelevanceScore pyo e))
  sortBy (fun a b => pairKeyLe
    (localNewsRelevanceScore pyo b, pyLower b.title)
    (localNewsRelevanceScore pyo a, pyLower a.title)) kept

/-- Fuel-driven engine for Python `str.replace` (each step consumes at least
one character, so `fuel = length` always suffices; the structural fuel keeps
the definition kernel-reducible).  An empty pattern never occurs at the call
sites. -/
def replaceAllFuel (pat rep : List Char) : ℕ → List Char → List Char
  | 0, l => l
  | _ + 1, [] => []
  | fuel + 1, c :: rest =>
    if pat ≠ [] ∧ listStartsWith pat (c :: rest) then
      rep ++ replaceAllFuel pat rep fuel ((c :: rest).drop pat.length)
    else c :: replaceAllFuel pat rep fuel rest

/-- Python `s.replace(pat, rep)` (non-overlapping, left to right). -/
def pyReplaceStr (s pat rep : String) : String :=
  ⟨replaceAllFuel pat.data rep.data s.data.length s.data⟩

/-- Fuel-driven engine for Python `str.split(sep)` with a non-empty
separator; `acc` holds the current piece reversed. -/
def splitOnFuel (sep : List Char) : ℕ → List Char → List Char → List (List Char)
  | 0, acc, l => [acc.reverse ++ l]
  | _ + 1, acc, [] => [acc.reverse]
  | fuel + 1, acc, c :: rest =>
    if sep ≠ [] ∧ listStartsWith sep (c :: rest) then
      acc.reverse :: splitOnFuel sep fuel [] ((c :: rest).drop sep.length)
    else splitOnFuel sep fuel (c :: acc) rest

/-- Python `s.split(sep)` for a non-empty separator. -/
def pySplitOnStr (s sep : String) : List String :=
  (splitOnFuel sep.data (s.data.length + 1) [] s.data).map (fun l => (⟨l⟩ : String))

/-- ASCII `\w` (Python's is Unicode-aware; every input reaching the word
boundary scan in the theorems below is ASCII). -/
def isWordChar (c : Char) : Bool :=
  c.isAlpha || c.isDigit || c = '_'

/-- Python `int(...)` on a digit string. -/
def digitsToNat (l : List Char) : ℕ :=
  l.foldl (fun n c => n * 10 + (c.toNat - 48)) 0

/-- Token matching `re.fullmatch(r"\d+", token)`. -/
def isDigits (s : String) : Bool :=
  !s.data.isEmpty && s.data.all Char.isDigit

/-- Scanner for `re.findall(r"\b\d+\b", s)`: collect each maximal digit run
whose neighbours (if any) are not word characters.  `run` holds the current
digit run reversed; `prevOk` records whether the character preceding the run
was a word boundary. -/
def scanBoundedNumbers (prevOk : Bool) (run : List Char) : List Char → List ℕ
  | [] => if !run.isEmpty && prevOk then [digitsToNat run.reverse] else []
  | c :: rest =>
    if c.isDigit then scanBoundedNumbers prevOk (c :: run) rest
    else
      let tail := scanBoundedNumbers (!isWordChar c) [] rest
      if !run.isEmpty && prevOk && !isWordChar c then digitsToNat run.reverse :: tail
      else tail

/-- First collection loop of `summarize._parse_selection`: keep in-range,
unseen indices, stopping once `limit` are collected. -/
def pickIndices : List ℕ → ℕ → ℕ → List ℕ → List ℕ
  | [], _, _, acc => acc
  | n :: rest, total, limit, acc =>
    let acc2 := if 1 ≤ n ∧ n ≤ total ∧ n ∉ acc then acc ++ [n] else acc
    if acc2.length = limit then acc2 else pickIndices rest total limit acc2

/-- Deterministic fill loop of `summarize._parse_selection`: append the
lowest unused indices until `limit` is reached. -/
def fillIndices : List ℕ → ℕ → List ℕ → List ℕ
  | [], _, acc => acc
  | n :: rest, limit, acc =>
    let acc2 := if n ∈ acc then acc else acc ++ [n]
    if acc2.length = limit then acc2 else fillIndices rest limit acc2

/-- Embedding of `summarize._parse_selection`. -/
def parseSelection (response : String) (total limit : ℕ) : List ℕ :=
  let tokens := (pySplitOnStr (pyReplaceStr response "\n" " ") ",").map pyStrip
  let candidates := (tokens.filter isDigits).map (fun t => digitsToNat t.data)
  let candidates := if candidates = [] then
      scanBoundedNumbers true [] ((pySplitOnStr response ":").getLastD "").data
    else candidates
  let uniq := pickIndices candidates total limit []
  if uniq.length < limit then fillIndices (List.range' 1 total) limit uniq else uniq

/-- Embedding of `summarize._selection_source_label`. -/
def selectionSourceLabel (e : FeedEntry) : String :=
  e.source_group

/-- Embedding of `summarize._is_near_duplicate` (threshold 0.86): a
same-hostname already-selected record with a similar title. -/
def isNearDuplicateSel (pyo : PyOracles) (e : FeedEntry) (selected : List FeedEntry) : Bool :=
  selected.any (fun ex =>
    pyo.getHostname ex.link = pyo.getHostname e.link &&
    decide ((86 : ℚ) / 100 ≤ titleSimilarity pyo.ratio e.title ex.title))

/-- Embedding of `summarize._hits_source_cap`. -/
def hitsSourceCap (e : FeedEntry) (selected : List FeedEntry) (cap : Option ℕ) : Bool :=
  match cap with
  | none => false
  | some c =>
    c ≤ (selected.filter (fun it => selectionSourceLabel it = selectionSourceLabel e)).length

/-- Embedding of `summarize._violates_diversity` (default cap 2, never
overridden at a call site). -/
def violatesDiversity (e : FeedEntry) (selected remaining : List FeedEntry)
    (meta : String → EntryMeta) : Bool :=
  if 5 ≤ selected.length then false
  else
    let domain := (meta e.link).domain
    if (selected.filter (fun it => (meta it.link).domain = domain)).length < 2 then false
    else remaining.any (fun it => (meta it.link).domain ≠ domain)

/-- First walk of `summarize._apply_selection_constraints`: accept, or defer
on source-cap/diversity/quality, or drop near-duplicates. -/
def selectionPass1 (pyo : PyOracles) (meta : String → EntryMeta) (limit : ℕ)
    (cap : Option ℕ) :
    List FeedEntry → List FeedEntry → List FeedEntry → List FeedEntry × List FeedEntry
  | [], selected, deferred => (selected, deferred)
  | e :: rest, selected, deferred =>
    if limit ≤ selected.length then (selected, deferred)
    else if isNearDuplicateSel pyo e selected then
      selectionPass1 pyo meta limit cap rest selected deferred
    else if hitsSourceCap e selected cap then
      selectionPass1 pyo meta limit cap rest selected (deferred ++ [e])
    else if violatesDiversity e selected rest meta then
      selectionPass1 pyo meta limit cap rest selected (deferred ++ [e])
    else if (meta e.link).is_low_info || (meta e.link).is_admin then
      selectionPass1 pyo meta limit cap rest selected (deferred ++ [e])
    else selectionPass1 pyo meta limit cap rest (selected ++ [e]) deferred

/-- Replay of the deferred records (diversity and quality flags relaxed). -/
def selectionPass2 (pyo : PyOracles) (limit : ℕ) (cap : Option ℕ) :
    List FeedEntry → List FeedEntry → List FeedEntry
  | [], selected => selected
  | e :: rest, selected =>
    if limit ≤ selected.length then selected
    else if isNearDuplicateSel pyo e selected then selectionPass2 pyo limit cap rest selected
    else if hitsSourceCap e selected cap then selectionPass2 pyo limit cap rest selected
    else selectionPass2 pyo limit cap rest (selected ++ [e])

/-- Final replay over the whole pool (only near-duplicate and source-cap
rules kept). -/
def selectionPass3 (pyo : PyOracles) (limit : ℕ) (cap : Option ℕ) :
    List FeedEntry → List FeedEntry → List FeedEntry
  | [], selected => selected
  | e :: rest, selected =>
    if limit ≤ selected.length then selected
    else if e ∈ selected then selectionPass3 pyo limit cap rest selected
    else if isNearDuplicateSel pyo e selected then selectionPass3 pyo limit cap rest selected
    else if hitsSourceCap e selected cap then selectionPass3 pyo limit cap rest selected
    else selectionPass3 pyo limit cap rest (selected ++ [e])

/-- Embedding of `summarize._apply_selection_constraints`. -/
def applySelectionConstraints (pyo : PyOracles) (chosen ranked : List FeedEntry)
    (meta : String → EntryMeta) (limit : ℕ) (cap : Option ℕ) : List FeedEntry :=
  let pool := chosen ++ ranked.filter (fun e => e ∉ chosen)
  let firstPass := selectionPass1 pyo meta limit cap pool [] []
  let sel2 := selectionPass2 pyo limit cap firstPass.2 firstPass.1
  if sel2.length < limit then selectionPass3 pyo limit cap pool sel2 else sel2

/-- Embedding of `summarize.select_top_items` (see the section comment for
the `ranker` argument; the prompt strings the code builds flow only into the
external call and are omitted). -/
def selectTopItems (pyo : PyOracles) (maxItemsPerSource : Option ℕ)
    (ranker : Except Unit String) (entries : List FeedEntry) (topic : String)
    (limit : ℕ) : Except Unit (List FeedEntry) :=
  let filtered := if topic = LOCAL_NEWS_TOPIC then filterLocalNewsEntries pyo entries
    else entries
  let meta := metaByLink pyo filtered
  let ranked := rankEntries pyo topic filtered meta
  if filtered.length ≤ limit then
    Except.ok (applySelectionConstraints pyo ranked ranked meta limit maxItemsPerSource)
  else
    match ranker with
    | Except.error err => Except.error err
    | Except.ok response =>
      let indices := parseSelection response ranked.length limit
      let chosen := indices.map (fun i => ranked.getD (i - 1) defaultEntry)
      Except.ok (applySelectionConstraints pyo chosen ranked meta limit maxItemsPerSource)

/-- Number of already-selected records sharing a source group (the count
`_hits_source_cap` compares against its cap). -/
def groupCount (g : String) (l : List FeedEntry) : ℕ :=
  (l.filter (fun it => selectionSourceLabel it = g)).length

/-- A three-record pool with pairwise distinct links and hostnames, used to
exercise the selection pipeline on concrete data. -/
def c8pool : List FeedEntry :=
  [⟨"World", "Alpha story", "https://a.example/1", "", "Src A", "Feed A", "grp-a", "", none⟩,
   ⟨"World", "Beta story", "https://b.example/1", "", "Src B", "Feed B", "grp-b", "", none⟩,
   ⟨"World", "Gamma story", "https://c.example/1", "", "Src C", "Feed C", "grp-c", "", none⟩]

/-- A ten-record pool in which six records share source group `"A"` and the
remaining four span the two further groups `"B"` and `"C"`. -/
def c9pool : List FeedEntry :=
  [⟨"World", "a one", "https://a1.example/", "", "", "", "A", "", none⟩,
   ⟨"World", "a two", "https://a2.example/", "", "", "", "A", "", none⟩,
   ⟨"World", "a three", "https://a3.example/", "", "", "", "A", "", none⟩,
   ⟨"World", "a four", "https://a4.example/", "", "", "", "A", "", none⟩,
   ⟨"World", "a five", "https://a5.example/", "", "", "", "A", "", none⟩,
   ⟨"World", "a six", "https://a6.example/", "", "", "", "A", "", none⟩,
   ⟨"World", "b one", "https://b1.example/", "", "", "", "B", "", none⟩,
   ⟨"World", "b two", "https://b2.example/", "", "", "", "B", "", none⟩,
   ⟨"World", "c one", "https://c1.example/", "", "", "", "C", "", none⟩,
   ⟨"World", "c two", "https://c2.example/", "", "", "", "C", "", none⟩]

/-- A ten-record pool in which six records share source group `"A"` and the
remaining four all share the single further group `"B"`. -/
def c9bad : List FeedEntry :=
  [⟨"World", "a one", "https://a1.example/", "", "", "", "A", "", none⟩,
   ⟨"World", "a two", "https://a2.example/", "", "", "", "A", "", none⟩,
   ⟨"World", "a three", "https://a3.example/", "", "", "", "A", "", none⟩,
   ⟨"World", "a four", "https://a4.example/", "", "", "", "A", "", none⟩,
   ⟨"World", "a five", "https://a5.example/", "", "", "", "A", "", none⟩,
   ⟨"World", "a six", "https://a6.example/", "", "", "", "A", "", none⟩,
   ⟨"World", "b one", "https://b1.example/", "", "", "", "B", "", none⟩,
   ⟨"World", "b two", "https://b2.example/", "", "", "", "B", "", none⟩,
   ⟨"World", "b three", "https://b3.example/", "", "", "", "B", "", none⟩,
   ⟨"World", "b four", "https://b4.example/", "", "", "", "B", "", none⟩]

/-- First record of the C4 witness trace: undated, empty summary
(quality score 0). -/
def weakItem : FeedEntry :=
  { topic := "t", title := "Weak", link := "https://w.example/s", published := ""
    src := "W", feed_name := "W", source_group := "W", summary := "", full_text := none }

/-- Second record of the C4 witness trace: same canonical URL, dated
(quality score 2). -/
def strongItem : FeedEntry :=
  { topic := "t", title := "Strong", link := "https://w.example/s"
    published := "2024-01-02T00:00:00+00:00", src := "W", feed_name := "W"
    source_group := "W", summary := "", full_text := none }

/-- Seen record 25 hours old (C6 witness). -/
def c6Old : SeenEntry := ⟨defaultEntry, "u1", "h1", some (-90000), ∅⟩

/-- Seen record exactly 24 hours old (C6 witness). -/
def c6Boundary : SeenEntry := ⟨defaultEntry, "u2", "h2", some (-86400), ∅⟩

/-- Undated seen record (C6 witness). -/
def c6Undated : SeenEntry := ⟨defaultEntry, "u3", "h3", none, ∅⟩

/-- Registry state holding the three C6 probe records. -/
def c6State : RegState :=
  ⟨{"u1", "u2", "u3"}, [c6Old, c6Boundary, c6Undated], fun _ => []⟩

/-! ### Supporting lemmas about the text normalizer -/

theorem dropWhile_head_not {p : Char → Bool} :
    ∀ {l : List Char} {a : Char} {t : List Char},
      List.dropWhile p l = a :: t → p a = false := by
  intro l
  induction l with
  | nil => intro a t h; simp [List.dropWhile] at h
  | cons c cs ih =>
    intro a t h
    by_cases hc : p c
    · rw [List.dropWhile_cons_of_pos hc] at h
      exact ih h
    · rw [List.dropWhile_cons_of_neg hc] at h
      cases h
      simpa using hc

theorem dropWhile_suffix_decomp {p : Char → Bool} :
    ∀ (l : List Char), ∃ pre, l = pre ++ l.dropWhile p := by
  intro l
  induction l with
  | nil => exact ⟨[], rfl⟩
  | cons c cs ih =>
    by_cases hc : p c
    · obtain ⟨pre, hpre⟩ := ih
      exact ⟨c :: pre, by rw [List.dropWhile_cons_of_pos hc]; simpa using hpre⟩
    · exact ⟨[], by rw [List.dropWhile_cons_of_neg hc]; simp⟩

theorem pySplitWsAux_ne_nil {acc : List Char} (hacc : acc ≠ []) :
    ∀ l, pySplitWsAux l acc ≠ [] := by
  intro l
  induction l generalizing acc with
  | nil => simp [pySplitWsAux, hacc]
  | cons c cs ih =>
    simp only [pySplitWsAux]
    by_cases hc : pyIsSpace c
    · simp [hc, hacc]
    · simpa [hc] using @ih (c :: acc) (by simp)

theorem pySplitWs_ne_nil {a : Char} {t : List Char} (ha : pyIsSpace a = false) :
    pySplitWs (a :: t) ≠ [] := by
  simp only [pySplitWs, pySplitWsAux, ha]
  simpa using @pySplitWsAux_ne_nil [a] (by simp) t

theorem pyStripChars_head_not_space {l : List Char} {a : Char} {t : List Char}
    (h : pyStripChars l = a :: t) : pyIsSpace a = false := by
  unfold pyStripChars at h
  set A := l.dropWhile pyIsSpace with hA
  obtain ⟨pre, hpre⟩ := dropWhile_suffix_decomp (p := pyIsSpace) A.reverse
  have hAeq : A = (A.reverse.dropWhile pyIsSpace).reverse ++ pre.reverse := by
    have := congrArg List.reverse hpre
    simpa [List.reverse_append] using this
  rw [h] at hAeq
  have hfin : A = a :: (t ++ pre.reverse) := by simpa using hAeq
  rw [hA] at hfin
  exact dropWhile_head_not hfin

theorem tokensOf_card_pos {s : String} (hs : s ≠ "") (hdata : ∃ m, s.data = pyStripChars m) :
    0 < (tokensOf s).card := by
  obtain ⟨m, hm⟩ := hdata
  have hne : s.data ≠ [] := by
    intro hnil
    exact hs (by cases s; simp_all)
  obtain ⟨a, t, hat⟩ : ∃ a t, s.data = a :: t := by
    cases hd : s.data with
    | nil => exact absurd hd hne
    | cons a t => exact ⟨a, t, rfl⟩
  have ha : pyIsSpace a = false := pyStripChars_head_not_space (l := m) (by rw [← hm, hat])
  have hsplit : pySplitWs s.data ≠ [] := by rw [hat]; exact pySplitWs_ne_nil ha
  rw [Finset.card_pos]
  unfold tokensOf
  cases hps : pySplitWs s.data with
  | nil => exact absurd hps hsplit
  | cons x xs => exact ⟨⟨x⟩, by simp⟩

end DailyPaper

namespace DailyPaper

/-- C7, counterexample: `"!"` is a non-empty string, yet
`title_similarity("!", "!")` is 0.0, not 1.0 — normalization erases every
non-alphanumeric character, so the empty-normal-form guard fires. -/
theorem similarity_self_counterexample :
    ("!" : String) ≠ "" ∧ titleSimilarity ratioZero "!" "!" = 0 := by
  exact ⟨by decide, rfl⟩

/-- C7, amended: `title_similarity(x, x) = 1.0` for every string whose
normalized form (lower-cased, non-alphanumerics replaced by spaces,
whitespace collapsed and stripped) is non-empty — in particular every string
containing an alphanumeric character; strings normalizing to the empty string
give 0.0, and `title_similarity("", y) = 0.0` for every `y`.  The `difflib`
ratio oracle is only assumed to respect its documented upper bound of 1. -/
theorem similarity_identities (ratio : String → String → ℚ)
    (hr : ∀ s t, ratio s t ≤ 1) :
    (∀ x, normalizeText x ≠ "" → titleSimilarity ratio x x = 1) ∧
    (∀ x, normalizeText x = "" → titleSimilarity ratio x x = 0) ∧
    (∀ y, titleSimilarity ratio "" y = 0) := by
  refine ⟨?_, ?_, ?_⟩
  · intro x hx
    have hcard : 0 < (tokensOf (normalizeText x)).card :=
      tokensOf_card_pos hx ⟨collapseWs ((x.data.map Char.toLower).map normChar), rfl⟩
    have hmax : max 1 (tokensOf (normalizeText x)).card = (tokensOf (normalizeText x)).card :=
      max_eq_right hcard
    simp only [titleSimilarity, tokenSequenceSimilarity]
    rw [if_neg (by simp [hx])]
    rw [Finset.inter_self, min_self, hmax,
      div_self (by exact_mod_cast hcard.ne' : ((tokensOf (normalizeText x)).card : ℚ) ≠ 0)]
    exact max_eq_left (hr _ _)
  · intro x hx
    simp only [titleSimilarity]
    rw [if_pos (Or.inl hx)]
  · intro y
    have h0 : normalizeText "" = "" := rfl
    simp only [titleSimilarity]
    rw [if_pos (Or.inl h0)]

/-- C7 witness: the amended identities applied at concrete inputs with the
constant-1 ratio oracle. -/
theorem similarity_identities_witness :
    titleSimilarity ratioOne "abc" "abc" = 1 ∧ titleSimilarity ratioOne "" "z" = 0 := by
  have h := similarity_identities ratioOne (fun _ _ => le_refl 1)
  exact ⟨h.1 "abc" (by decide), h.2.2 "z"⟩

end DailyPaper

namespace DailyPaper

/-- C3, counterexample: on a dated entry with an empty summary the
duplicate-replacement score (`fetch._entry_quality_score`) is 2, the default
ranking score (`summarize._entry_score`) is 0, and the specification's formula
gives 1 — so the program does not use a single quality-score function, and
neither of the two it uses matches the claimed formula. -/
theorem quality_score_not_shared_counterexample :
    entryQualityScore scoreProbe = 2 ∧
    entryScore (entryMeta (fun _ => "example.com") scoreProbe) = 0 ∧
    specQualityScore scoreProbe = 1 ∧
    entryQualityScore scoreProbe ≠ entryScore (entryMeta (fun _ => "example.com") scoreProbe) ∧
    entryQualityScore scoreProbe ≠ specQualityScore scoreProbe ∧
    entryScore (entryMeta (fun _ => "example.com") scoreProbe) ≠ specQualityScore scoreProbe := by
  have hp : scoreProbe.published ≠ "" := by decide
  have h240 : (compactText [scoreProbe.summary] 240).length = 0 := rfl
  have hm : entryMeta (fun _ => "example.com") scoreProbe =
      { domain := "example.com", summary_length := 0, is_low_info := true,
        is_admin := false, has_published := true } := rfl
  have h280 : (compactText [scoreProbe.summary] 280).length = 0 := rfl
  have hadm : (ADMIN_KEYWORDS.any fun k =>
      containsSub (pyLower (scoreProbe.title ++ " " ++ compactText [scoreProbe.summary] 280)) k)
      = false := rfl
  have h1 : entryQualityScore scoreProbe = 2 := by
    simp [entryQualityScore, h240, hp]
  have h2 : entryScore (entryMeta (fun _ => "example.com") scoreProbe) = 0 := by
    rw [hm]; simp [entryScore]
  have h3 : specQualityScore scoreProbe = 1 := by
    simp [specQualityScore, hp, h280, hadm]
    norm_num
  refine ⟨h1, h2, h3, ?_, ?_, ?_⟩ <;> simp only [h1, h2, h3] <;> norm_num

set_option maxHeartbeats 1000000 in
/-- C3, amended: the program uses two distinct scores.  The default ranking
score equals the specification's formula except that the publish-time bonus is
+1.0 instead of +2.0; the duplicate-replacement score is +2.0 for a publish
time plus `min(len(cleaned summary), 240)/240` with no low-information or
administrative penalty. -/
theorem quality_score_two_functions (h : String → String) (e : FeedEntry) :
    entryScore (entryMeta h e) = specQualityScore e - (if e.published ≠ "" then 1 else 0) ∧
    entryQualityScore e =
      (if e.published ≠ "" then 2 else 0)
        + ((min (compactText [e.summary] 240).length 240 : ℕ) : ℚ) / 240 := by
  constructor
  · simp only [entryScore, entryMeta, specQualityScore, decide_eq_true_eq]
    by_cases hp : e.published = "" <;>
      simp only [hp, ne_eq, eq_self_iff_true, not_true_eq_false, not_false_eq_true,
        ite_true, ite_false] <;>
      ring
  · rfl

/-! ### C5: canonicalization collapses tracking variants -/

theorem rstripSlashes_append_slash (p : List Char) :
    rstripSlashes (p ++ ['/']) = rstripSlashes p := by
  unfold rstripSlashes
  rw [List.reverse_append]
  simp [List.dropWhile]

theorem rstripSlashes_of_not_slash {p : List Char} {c : Char} {t : List Char}
    (hrev : p.reverse = c :: t) (hc : c ≠ '/') : rstripSlashes p = p := by
  unfold rstripSlashes
  rw [hrev, List.dropWhile_cons_of_neg (by simpa using hc)]
  rw [← hrev, List.reverse_reverse]

theorem normPath_append_slash {p : List Char} (hp : p ≠ ['/']) :
    normPath (p ++ ['/']) = normPath p := by
  by_cases hnil : p = []
  · subst hnil; rfl
  · have hrev : (p ++ ['/']).reverse.head? = some '/' := by
      rw [List.reverse_append]; rfl
    have hne : p ++ ['/'] ≠ ['/'] := by
      intro h
      have hlen : p.length = 0 := by
        have := congrArg List.length h
        simpa using this
      exact hnil (List.length_eq_zero.1 hlen)
    have hL : normPath (p ++ ['/']) = rstripSlashes p := by
      simp only [normPath]
      rw [if_neg (by simp : ¬(p ++ ['/'] = [])), if_pos ⟨hrev, hne⟩,
        rstripSlashes_append_slash]
    rw [hL]
    simp only [normPath]
    rw [if_neg hnil]
    by_cases hslash : p.reverse.head? = some '/' ∧ p ≠ ['/']
    · rw [if_pos hslash]
    · rw [if_neg hslash]
      obtain ⟨c, t, hct⟩ : ∃ c t, p.reverse = c :: t := by
        cases hr : p.reverse with
        | nil => exact absurd (by simpa using congrArg List.reverse hr) hnil
        | cons c t => exact ⟨c, t, rfl⟩
      have hcne : c ≠ '/' := by
        intro hceq
        exact hslash ⟨by simp [hct, hceq], hp⟩
      exact rstripSlashes_of_not_slash hct hcne

/-- C5, counterexample: the URLs `https://example.com/` and
`https://example.com//` differ only by a trailing slash on the path, yet
they canonicalize to the distinct strings `https://example.com/` and
`https://example.com` — `rstrip("/")` erases the root path entirely. -/
theorem canonicalize_counterexample :
    urlRootSlash.path = urlRoot.path ++ ['/'] ∧
    normalizeUrl id urlRoot ≠ normalizeUrl id urlRootSlash := by
  exact ⟨rfl, by decide⟩

/-- C5, amended: canonicalization is invariant under http/https scheme
choice, under adding or removing tracking query parameters (`utm_`-named or
deny-listed), under the fragment, and under a trailing slash appended to any
path other than the root path `/` (on the root path the code strips `//` to
the empty path while keeping `/` intact, the counterexample above). -/
theorem canonicalize_collapses_variants (quote : List Char → List Char) (u : PyUrl)
    (q1 q2 : List (List Char × List Char)) (f : List Char) :
    normalizeUrl quote { u with scheme := "http".data } =
      normalizeUrl quote { u with scheme := "https".data } ∧
    (q1.filter (fun kv => ¬ isTrackingParam kv.1) =
        q2.filter (fun kv => ¬ isTrackingParam kv.1) →
      normalizeUrl quote { u with query := q1 } =
        normalizeUrl quote { u with query := q2 }) ∧
    (u.path ≠ ['/'] →
      normalizeUrl quote { u with path := u.path ++ ['/'] } = normalizeUrl quote u) ∧
    normalizeUrl quote { u with fragment := f } = normalizeUrl quote u := by
  refine ⟨rfl, ?_, ?_, rfl⟩
  · intro hq
    simp only [normalizeUrl, hq]
  · intro hp
    simp only [normalizeUrl]
    rw [normPath_append_slash hp]

/-- C5 witness: the amended invariances applied to a concrete URL with a
non-root path, a tracked query, and a fragment. -/
theorem canonicalize_collapses_variants_witness :
    normalizeUrl id { urlProbe with scheme := "http".data } =
      normalizeUrl id { urlProbe with scheme := "https".data } ∧
    normalizeUrl id { urlProbe with query := queryTracked } =
      normalizeUrl id { urlProbe with query := queryClean } ∧
    normalizeUrl id { urlProbe with path := urlProbe.path ++ ['/'] } =
      normalizeUrl id urlProbe ∧
    normalizeUrl id { urlProbe with fragment := "frag".data } = normalizeUrl id urlProbe := by
  have h := canonicalize_collapses_variants id urlProbe queryTracked queryClean "frag".data
  exact ⟨h.1, h.2.1 (by decide), h.2.2.1 (by decide), h.2.2.2⟩

/-! ### C10: missing publish times make the fuzzy-match time gates vacuous -/

/-- C10: when either record lacks a publish time, both the compare-window
gate and the 180-minute translation gate pass vacuously, and the
translation-duplicate test reduces to the metadata-overlap comparison
alone. -/
theorem missing_publish_time_gates (l r : Option ℤ) (m h : ℤ)
    (m1 m2 : Finset String) (thr : ℚ) (hnone : l = none ∨ r = none) :
    withinRecentMinutes l r m = true ∧
    withinRecentWindow l r h = true ∧
    isTranslationDuplicate l r m1 m2 thr m =
      decide (thr ≤ metadataOverlapRatio m1 m2) := by
  have h1 : withinRecentMinutes l r m = true := by
    rcases hnone with hcase | hcase
    · subst hcase; rfl
    · subst hcase; cases l <;> rfl
  have h2 : withinRecentWindow l r h = true := by
    rcases hnone with hcase | hcase
    · subst hcase; rfl
    · subst hcase; cases l <;> rfl
  refine ⟨h1, h2, ?_⟩
  simp [isTranslationDuplicate, h1]

/-- C10 witness: an undated incoming record against a dated seen record. -/
theorem missing_publish_time_gates_witness :
    withinRecentMinutes none (some 500000) 180 = true ∧
    withinRecentWindow none (some 500000) 24 = true ∧
    isTranslationDuplicate none (some 500000) {"x"} {"x"} (65/100) 180 =
      decide ((65/100 : ℚ) ≤ metadataOverlapRatio {"x"} {"x"}) := by
  exact missing_publish_time_gates none (some 500000) 180 24 {"x"} {"x"} (65/100)
    (Or.inl rfl)

/-! ### C4: duplicate registration outcomes -/

/-- C4: registering a record into the empty registry yields `added`;
registering a second record with the same canonical URL (same `now`, first
record not pruned in between) yields `replaced` exactly when the second
record's quality score is strictly greater, and `skipped` otherwise (ties
keep the earlier record). -/
theorem duplicate_registration_outcomes (pyo : PyOracles) (r1 r2 : FeedEntry)
    (pub1 pub2 : Option ℤ) (now cw pw : ℤ)
    (hlink : r2.link = r1.link)
    (hkeep : pruneKeep pub1 (now - pw * 3600) = true) :
    (registerEntry pyo false initState r1 pub1 now cw pw).1 = Outcome.added ∧
    (registerEntry pyo false
        (registerEntry pyo false initState r1 pub1 now cw pw).2 r2 pub2 now cw pw).1 =
      (if entryQualityScore r1 < entryQualityScore r2 then Outcome.replaced
       else Outcome.skipped) := by
  have hstate : (registerEntry pyo false initState r1 pub1 now cw pw).2 =
      ⟨{r1.link},
        [⟨r1, r1.link, pyo.getHostname r1.link, pub1, buildStoryMetadata pyo r1⟩],
        updateBucket (fun _ => []) r1.topic (fun l => l ++ [r1])⟩ := rfl
  refine ⟨rfl, ?_⟩
  rw [hstate]
  simp only [registerEntry, pruneSeenEntries, findSeenByUrl]
  rw [if_neg (by simp : ¬(false = true))]
  rw [List.filter_cons_of_pos (by simpa using hkeep), List.filter_nil]
  rw [List.find?_cons_of_pos _ (by simpa using hlink.symm)]
  simp only [isBetterEntry, decide_eq_true_eq]
  split <;> rfl

/-- C4 witness: the outcome pair on a concrete trace where the second record
scores strictly higher — `added` then `replaced`. -/
theorem duplicate_registration_outcomes_witness :
    (registerEntry oraclesId false initState weakItem none 0 24 24).1 = Outcome.added ∧
    (registerEntry oraclesId false
        (registerEntry oraclesId false initState weakItem none 0 24 24).2
        strongItem (some (-60)) 0 24 24).1 = Outcome.replaced := by
  have h := duplicate_registration_outcomes oraclesId weakItem strongItem
    none (some (-60)) 0 24 24 rfl (by decide)
  refine ⟨h.1, ?_⟩
  rw [h.2, if_pos ?_]
  have hw : entryQualityScore weakItem = 0 := by
    have hc : (compactText [weakItem.summary] 240).length = 0 := rfl
    have hp : weakItem.published = "" := rfl
    simp [entryQualityScore, hc, hp]
  have hs : entryQualityScore strongItem = 2 := by
    have hc : (compactText [strongItem.summary] 240).length = 0 := rfl
    have hp : strongItem.published ≠ "" := by decide
    simp [entryQualityScore, hc, hp]
  rw [hw, hs]
  norm_num

/-! ### C6: pruning window boundary -/

theorem mem_replaceFirst_of_ne {old new e : SeenEntry} :
    ∀ {l : List SeenEntry}, e ∈ l → e ≠ old → e ∈ replaceFirst old new l := by
  intro l
  induction l with
  | nil => intro h _; simp at h
  | cons s rest ih =>
    intro hmem hne
    simp only [replaceFirst]
    by_cases hs : s = old
    · rw [if_pos hs]
      rcases List.mem_cons.1 hmem with heq | hmem2
      · exact absurd (heq.trans hs) hne
      · exact List.mem_cons_of_mem _ hmem2
    · rw [if_neg hs]
      rcases List.mem_cons.1 hmem with heq | hmem2
      · exact heq ▸ List.mem_cons_self _ _
      · exact List.mem_cons_of_mem _ (ih hmem2 hne)

theorem mem_of_mem_replaceFirst {old new s : SeenEntry} :
    ∀ {l : List SeenEntry}, s ∈ replaceFirst old new l → s ∈ l ∨ s = new := by
  intro l
  induction l with
  | nil => intro h; simp [replaceFirst] at h
  | cons s0 rest ih =>
    intro hmem
    simp only [replaceFirst] at hmem
    by_cases hs : s0 = old
    · rw [if_pos hs] at hmem
      rcases List.mem_cons.1 hmem with heq | hmem2
      · exact Or.inr heq
      · exact Or.inl (List.mem_cons_of_mem _ hmem2)
    · rw [if_neg hs] at hmem
      rcases List.mem_cons.1 hmem with heq | hmem2
      · exact Or.inl (heq ▸ List.mem_cons_self _ _)
      · rcases ih hmem2 with hin | hnew
        · exact Or.inl (List.mem_cons_of_mem _ hin)
        · exact Or.inr hnew

/-- Every seen-record present after a (non-dry-run) register call either
survived the prune pass or carries the incoming record's publish time. -/
theorem registerEntry_published_of_mem (pyo : PyOracles) (st : RegState)
    (item : FeedEntry) (pub : Option ℤ) (now cw pw : ℤ) (s : SeenEntry)
    (hs : s ∈ ((registerEntry pyo false st item pub now cw pw).2).seen_entries) :
    s ∈ pruneSeenEntries st.seen_entries now pw ∨ s.published = pub := by
  simp only [registerEntry] at hs
  rw [if_neg (by simp : ¬(false = true))] at hs
  split at hs
  case h_1 ex heq =>
    split at hs
    · simp only [replaceEntry] at hs
      rcases mem_of_mem_replaceFirst hs with hin | hnew
      · exact Or.inl hin
      · exact Or.inr (by rw [hnew])
    · exact Or.inl hs
  case h_2 heq =>
    split at hs
    · exact Or.inl hs
    · split at hs
      case isFalse.h_1 nm heq2 =>
        split at hs
        · simp only [replaceEntry] at hs
          rcases mem_of_mem_replaceFirst hs with hin | hnew
          · exact Or.inl hin
          · exact Or.inr (by rw [hnew])
        · exact Or.inl hs
      case isFalse.h_2 =>
        rcases List.mem_append.1 hs with hin | hnew
        · exact Or.inl hin
        · exact Or.inr (by rcases List.mem_singleton.1 hnew with rfl; rfl)

/-- A pruned-surviving seen-record whose canonical URL and hostname both
differ from the incoming record's is still present after the register
call (it can be neither url-matched nor fuzzy-matched, hence never
replaced). -/
theorem registerEntry_preserves_mem (pyo : PyOracles) (st : RegState)
    (item : FeedEntry) (pub : Option ℤ) (now cw pw : ℤ) (e : SeenEntry)
    (he : e ∈ pruneSeenEntries st.seen_entries now pw)
    (hurl : item.link ≠ e.canonical_url)
    (hhost : pyo.getHostname item.link ≠ e.hostname) :
    e ∈ ((registerEntry pyo false st item pub now cw pw).2).seen_entries := by
  simp only [registerEntry]
  rw [if_neg (by simp : ¬(false = true))]
  split
  case h_1 ex heq =>
    have hexurl : ex.canonical_url = item.link := by
      have := List.find?_some heq
      simpa using this
    have hne : e ≠ ex := by
      intro h
      rw [← h] at hexurl
      exact hurl hexurl.symm
    split
    · simp only [replaceEntry]
      exact mem_replaceFirst_of_ne he hne
    · exact he
  case h_2 heq =>
    split
    · exact he
    · split
      case isFalse.h_1 nm heq2 =>
        have hpred := List.find?_some heq2
        have hnmhost : nm.hostname = pyo.getHostname item.link := by
          rw [Bool.and_eq_true, Bool.and_eq_true] at hpred
          simpa using hpred.1.1
        have hne : e ≠ nm := by
          intro h
          rw [← h] at hnmhost
          exact hhost hnmhost.symm
        split
        · simp only [replaceEntry]
          exact mem_replaceFirst_of_ne he hne
        · exact he
      case isFalse.h_2 =>
        exact List.mem_append_left _ he

/-- C6: with a 24-hour prune window, after the next register call a seen
record published 25 hours before `now` is gone from the seen-record list
(the incoming record being in-window or undated), one published exactly 24
hours before `now` survives (inclusive boundary), and an undated record is
never pruned (the latter two provided the incoming record does not replace
them, having a different canonical URL and hostname). -/
theorem prune_window_boundary (pyo : PyOracles) (st : RegState) (item : FeedEntry)
    (pub : Option ℤ) (now cw : ℤ) (e : SeenEntry) (hmem : e ∈ st.seen_entries) :
    (e.published = some (now - 90000) →
      (pub = none ∨ ∃ t, pub = some t ∧ now - 86400 ≤ t) →
      e ∉ ((registerEntry pyo false st item pub now cw 24).2).seen_entries) ∧
    (e.published = some (now - 86400) →
      item.link ≠ e.canonical_url → pyo.getHostname item.link ≠ e.hostname →
      e ∈ ((registerEntry pyo false st item pub now cw 24).2).seen_entries) ∧
    (e.published = none →
      item.link ≠ e.canonical_url → pyo.getHostname item.link ≠ e.hostname →
      e ∈ ((registerEntry pyo false st item pub now cw 24).2).seen_entries) := by
  refine ⟨?_, ?_, ?_⟩
  · intro hpubE hpubIn hpost
    rcases registerEntry_published_of_mem pyo st item pub now cw 24 e hpost with hin | hsame
    · have hkeepE := (List.mem_filter.1 hin).2
      rw [hpubE] at hkeepE
      simp only [pruneKeep, decide_eq_true_eq] at hkeepE
      omega
    · rw [hpubE] at hsame
      rcases hpubIn with hnone | ⟨t, hsome, ht⟩
      · rw [hnone] at hsame
        exact Option.noConfusion hsame
      · rw [hsome] at hsame
        have hinj : now - 90000 = t := by injection hsame
        omega
  · intro hpubE hurl hhost
    refine registerEntry_preserves_mem pyo st item pub now cw 24 e ?_ hurl hhost
    refine List.mem_filter.2 ⟨hmem, ?_⟩
    rw [hpubE]
    simp only [pruneKeep, decide_eq_true_eq]
    omega
  · intro hpubE hurl hhost
    refine registerEntry_preserves_mem pyo st item pub now cw 24 e ?_ hurl hhost
    refine List.mem_filter.2 ⟨hmem, ?_⟩
    rw [hpubE]
    rfl

/-- C6 witness: on the concrete three-record state, registering a fresh
record at `now = 0` drops the 25-hour-old record, keeps the exactly-24-hour
record and keeps the undated record. -/
theorem prune_window_boundary_witness :
    c6Old ∉ ((registerEntry oraclesId false c6State freshItem (some (-60)) 0 24 24).2).seen_entries ∧
    c6Boundary ∈ ((registerEntry oraclesId false c6State freshItem (some (-60)) 0 24 24).2).seen_entries ∧
    c6Undated ∈ ((registerEntry oraclesId false c6State freshItem (some (-60)) 0 24 24).2).seen_entries := by
  refine ⟨?_, ?_, ?_⟩
  · exact (prune_window_boundary oraclesId c6State freshItem (some (-60)) 0 24 c6Old
      (by decide)).1 (by decide) (Or.inr ⟨-60, rfl, by decide⟩)
  · exact (prune_window_boundary oraclesId c6State freshItem (some (-60)) 0 24 c6Boundary
      (by decide)).2.1 (by decide) (by decide) (by decide)
  · exact (prune_window_boundary oraclesId c6State freshItem (some (-60)) 0 24 c6Undated
      (by decide)).2.2 (by decide) (by decide) (by decide)

/-! ### C1: registry index consistency -/

theorem replaceFirst_decomp {old : SeenEntry} (new : SeenEntry) :
    ∀ {l : List SeenEntry}, old ∈ l →
      ∃ l₁ l₂, l = l₁ ++ old :: l₂ ∧ old ∉ l₁ ∧
        replaceFirst old new l = l₁ ++ new :: l₂ := by
  intro l
  induction l with
  | nil => intro h; simp at h
  | cons s rest ih =>
    intro hmem
    by_cases hs : s = old
    · subst hs
      exact ⟨[], rest, rfl, by simp, by simp [replaceFirst]⟩
    · have hrest : old ∈ rest := by
        rcases List.mem_cons.1 hmem with heq | h2
        · exact absurd heq.symm hs
        · exact h2
      obtain ⟨l₁, l₂, hdec, hnot, hrep⟩ := ih hrest
      refine ⟨s :: l₁, l₂, by rw [hdec]; rfl, ?_, ?_⟩
      · simp only [List.mem_cons]
        push_neg
        exact ⟨fun h => hs h.symm, hnot⟩
      · simp only [replaceFirst, if_neg hs, hrep]
        rfl

/-- Superset and distinctness of the URL index survive a replace step. -/
theorem superset_after_replace (pyo : PyOracles) (st : RegState)
    (seen1 : List SeenEntry) (old : SeenEntry) (item : FeedEntry)
    (pub : Option ℤ) (meta : Finset String)
    (hmem : ∀ s ∈ st.seen_entries, s.canonical_url ∈ st.seen_urls)
    (hsub : ∀ s ∈ seen1, s ∈ st.seen_entries)
    (hnodup1 : (seen1.map (fun s => s.canonical_url)).Nodup)
    (holdmem : old ∈ seen1)
    (hcase : old.canonical_url = item.link ∨ item.link ∉ st.seen_urls) :
    (∀ s ∈ (replaceEntry pyo st seen1 old item pub meta).seen_entries,
        s.canonical_url ∈ (replaceEntry pyo st seen1 old item pub meta).seen_urls) ∧
    ((replaceEntry pyo st seen1 old item pub meta).seen_entries.map
        (fun s => s.canonical_url)).Nodup := by
  simp only [replaceEntry]
  obtain ⟨l₁, l₂, hdec, hnot1, hrep⟩ := replaceFirst_decomp
    ⟨item, item.link, pyo.getHostname item.link, pub, meta⟩ holdmem
  rw [hrep]
  have hmapdec : seen1.map (fun s => s.canonical_url) =
      l₁.map (fun s => s.canonical_url) ++
        old.canonical_url :: l₂.map (fun s => s.canonical_url) := by
    rw [hdec]; simp
  rw [hmapdec] at hnodup1
  have hmid := List.nodup_middle.1 hnodup1
  have hnotin : old.canonical_url ∉
      l₁.map (fun s => s.canonical_url) ++ l₂.map (fun s => s.canonical_url) :=
    (List.nodup_cons.1 hmid).1
  have hrestnodup := (List.nodup_cons.1 hmid).2
  constructor
  · intro s hs
    rcases List.mem_append.1 hs with hin1 | hs2
    · have hsmem : s ∈ seen1 := by
        rw [hdec]; exact List.mem_append_left _ hin1
      have hsurl : s.canonical_url ∈ st.seen_urls := hmem s (hsub s hsmem)
      have hsne : s.canonical_url ≠ old.canonical_url := by
        intro hEq
        apply hnotin
        rw [← hEq]
        exact List.mem_append_left _ (List.mem_map_of_mem _ hin1)
      exact Finset.mem_insert_of_mem (Finset.mem_erase.2 ⟨hsne, hsurl⟩)
    · rcases List.mem_cons.1 hs2 with rfl | hin2
      · exact Finset.mem_insert_self _ _
      · have hsmem : s ∈ seen1 := by
          rw [hdec]; exact List.mem_append_right _ (List.mem_cons_of_mem _ hin2)
        have hsurl : s.canonical_url ∈ st.seen_urls := hmem s (hsub s hsmem)
        have hsne : s.canonical_url ≠ old.canonical_url := by
          intro hEq
          apply hnotin
          rw [← hEq]
          exact List.mem_append_right _ (List.mem_map_of_mem _ hin2)
        exact Finset.mem_insert_of_mem (Finset.mem_erase.2 ⟨hsne, hsurl⟩)
  · have hmapnew : (l₁ ++ (⟨item, item.link, pyo.getHostname item.link, pub, meta⟩ :
        SeenEntry) :: l₂).map (fun s => s.canonical_url) =
        l₁.map (fun s => s.canonical_url) ++
          item.link :: l₂.map (fun s => s.canonical_url) := by
      simp
    rw [hmapnew, List.nodup_middle, List.nodup_cons]
    refine ⟨?_, hrestnodup⟩
    rcases hcase with hEq | hnotUrls
    · rw [← hEq]; exact hnotin
    · intro hinmaps
      apply hnotUrls
      rcases List.mem_append.1 hinmaps with h1 | h2
      · obtain ⟨s, hsm, hsl⟩ := List.mem_map.1 h1
        have hsmem : s ∈ seen1 := by
          rw [hdec]; exact List.mem_append_left _ hsm
        exact hsl ▸ hmem s (hsub s hsmem)
      · obtain ⟨s, hsm, hsl⟩ := List.mem_map.1 h2
        have hsmem : s ∈ seen1 := by
          rw [hdec]; exact List.mem_append_right _ (List.mem_cons_of_mem _ hsm)
        exact hsl ▸ hmem s (hsub s hsmem)

/-- C1, amended: in every reachable registry state the canonical URL index
is a superset of the set of `canonical_url` values across SeenRecords, and
those values are pairwise distinct; exact equality does not hold in general
because pruning drops records without removing their URLs from the index
(counterexample below). -/
theorem registry_index_superset (pyo : PyOracles) (st : RegState)
    (h : Reachable pyo st) :
    (∀ s ∈ st.seen_entries, s.canonical_url ∈ st.seen_urls) ∧
    (st.seen_entries.map (fun s => s.canonical_url)).Nodup := by
  induction h with
  | init =>
    constructor
    · intro s hs
      simp [initState] at hs
    · simp [initState]
  | step st dry item pub now cw pw hprev ih =>
    obtain ⟨hmem, hnodup⟩ := ih
    have hsub : ∀ s ∈ pruneSeenEntries st.seen_entries now pw, s ∈ st.seen_entries :=
      fun s hs => (List.mem_filter.1 hs).1
    have hnodup1 : ((pruneSeenEntries st.seen_entries now pw).map
        (fun s => s.canonical_url)).Nodup :=
      hnodup.sublist (List.Sublist.map _ (List.filter_sublist _))
    simp only [registerEntry]
    split
    · exact ⟨hmem, hnodup⟩
    · split
      case h_1 ex heq =>
        have hexmem : ex ∈ pruneSeenEntries st.seen_entries now pw :=
          List.mem_of_find?_eq_some heq
        have hexurl : ex.canonical_url = item.link := by
          simpa using List.find?_some heq
        split
        · exact superset_after_replace pyo st _ ex item pub _ hmem hsub hnodup1
            hexmem (Or.inl hexurl)
        · exact ⟨fun s hs => hmem s (hsub s hs), hnodup1⟩
      case h_2 heq =>
        split
        case isTrue hguard =>
          exact ⟨fun s hs => hmem s (hsub s hs), hnodup1⟩
        case isFalse hguard =>
          split
          case h_1 nm heq2 =>
            have hnmmem : nm ∈ pruneSeenEntries st.seen_entries now pw :=
              List.mem_of_find?_eq_some heq2
            split
            · exact superset_after_replace pyo st _ nm item pub _ hmem hsub hnodup1
                hnmmem (Or.inr hguard)
            · exact ⟨fun s hs => hmem s (hsub s hs), hnodup1⟩
          case h_2 heq3 =>
            constructor
            · intro s hs
              rcases List.mem_append.1 hs with hin | hnew
              · exact Finset.mem_insert_of_mem (hmem s (hsub s hin))
              · rcases List.mem_singleton.1 hnew with rfl
                exact Finset.mem_insert_self _ _
            · rw [List.map_append]
              simp only [List.map_cons, List.map_nil]
              refine List.Nodup.append hnodup1 (List.nodup_singleton _) ?_
              intro a ha hb
              rcases List.mem_singleton.1 hb with rfl
              obtain ⟨s, hsmem, hslink⟩ := List.mem_map.1 ha
              exact hguard (hslink ▸ hmem s (hsub s hsmem))

/-- C1, counterexample: after registering a 25-hour-old record and then a
fresh one (windows 24 h, `now = 0`), the prune pass has removed the stale
SeenRecord but its canonical URL is still in `seen_urls` — the URL index and
the record list have diverged, in a state reachable by two register calls
from the empty registry. -/
theorem registry_index_counterexample :
    Reachable oraclesId c1State2 ∧
    ¬ c1State2.seen_urls =
        (c1State2.seen_entries.map (fun s => s.canonical_url)).toFinset := by
  constructor
  · exact Reachable.step _ false freshItem (some (-60)) 0 24 24
      (Reachable.step _ false staleItem (some (-90000)) 0 24 24 Reachable.init)
  · decide

/-- C1 witness: the amended superset invariant evaluated on the concrete
two-step reachable state of the counterexample trace. -/
theorem registry_index_superset_witness :
    (∀ s ∈ c1State2.seen_entries, s.canonical_url ∈ c1State2.seen_urls) ∧
    (c1State2.seen_entries.map (fun s => s.canonical_url)).Nodup := by
  exact registry_index_superset oraclesId c1State2
    (Reachable.step _ false freshItem (some (-60)) 0 24 24
      (Reachable.step _ false staleItem (some (-90000)) 0 24 24 Reachable.init))

/-! ### C2: ranker failure is not caught -/

/-- C2, counterexample: with a pool larger than the limit and a raising
ranker call, `select_top_items` does not fall back to the quality order — it
propagates the exception and selection aborts (no try/except surrounds the
`chat_completion` call in `select_top_items`, and `chat_completion` itself
re-raises timeouts and API errors). -/
theorem ranker_exception_counterexample :
    selectTopItems oraclesId none (Except.error ()) [weakItem, strongItem] "t" 1 =
      Except.error () := by
  rfl

/-- C2, amended: whenever the ranker is consulted (pool strictly larger than
the limit after the topic filter), a raising ranker call makes
`select_top_items` itself raise; the quality-order fallback exists only for
malformed response text, not for exceptions. -/
theorem ranker_exception_propagates (pyo : PyOracles) (cap : Option ℕ)
    (entries : List FeedEntry) (topic : String) (limit : ℕ)
    (hlen : limit <
      (if topic = LOCAL_NEWS_TOPIC then filterLocalNewsEntries pyo entries
       else entries).length) :
    selectTopItems pyo cap (Except.error ()) entries topic limit = Except.error () := by
  simp only [selectTopItems]
  rw [if_neg (not_le.2 hlen)]

/-- C2 witness: the amended propagation theorem on a concrete two-record
pool with limit 1. -/
theorem ranker_exception_propagates_witness :
    selectTopItems oraclesId (some 2) (Except.error ()) [weakItem, strongItem] "World" 1 =
      Except.error () := by
  exact ranker_exception_propagates oraclesId (some 2) [weakItem, strongItem] "World" 1
    (by decide)

/-! ### Selection machinery: sorting, candidate pool, and parse lemmas -/

theorem insertSorted_perm (le : FeedEntry → FeedEntry → Bool) (x : FeedEntry) :
    ∀ l, List.Perm (insertSorted le x l) (x :: l) := by
  intro l
  induction l with
  | nil => exact List.Perm.refl _
  | cons y ys ih =>
    simp only [insertSorted]
    by_cases h : le x y
    · rw [if_pos h]
    · rw [if_neg h]
      exact (ih.cons y).trans (List.Perm.swap x y ys)

theorem sortBy_perm (le : FeedEntry → FeedEntry → Bool) :
    ∀ l, List.Perm (sortBy le l) l := by
  intro l
  induction l with
  | nil => exact List.Perm.refl _
  | cons x xs ih =>
    exact (insertSorted_perm le x (sortBy le xs)).trans (ih.cons x)

theorem rankEntries_perm (pyo : PyOracles) (topic : String) (entries : List FeedEntry)
    (meta : String → EntryMeta) : List.Perm (rankEntries pyo topic entries meta) entries := by
  unfold rankEntries
  split
  · exact sortBy_perm _ entries
  · exact sortBy_perm _ entries

theorem filter_not_mem_self (l : List FeedEntry) :
    l.filter (fun e => e ∉ l) = [] := by
  rw [List.filter_eq_nil_iff]
  intro a ha
  simp [ha]

theorem append_filter_not_mem (t dr : List FeedEntry) (hdisj : List.Disjoint t dr) :
    (t ++ dr).filter (fun e => e ∉ t) = dr := by
  rw [List.filter_append]
  have h1 : t.filter (fun e => e ∉ t) = [] := by
    rw [List.filter_eq_nil_iff]
    intro a ha
    simp [ha]
  have h2 : dr.filter (fun e => e ∉ t) = dr := by
    rw [List.filter_eq_self]
    intro a ha
    simpa using fun hmem => hdisj hmem ha
  rw [h1, h2, List.nil_append]

theorem take_append_filter_not_mem (l : List FeedEntry) (hnodup : l.Nodup) (k : ℕ) :
    l.take k ++ l.filter (fun e => e ∉ l.take k) = l := by
  have hdisj : List.Disjoint (l.take k) (l.drop k) := by
    have h2 := hnodup
    rw [← List.take_append_drop k l] at h2
    exact List.disjoint_of_nodup_append h2
  calc l.take k ++ l.filter (fun e => e ∉ l.take k)
      = l.take k ++ (l.take k ++ l.drop k).filter (fun e => e ∉ l.take k) := by
        rw [List.take_append_drop]
    _ = l.take k ++ l.drop k := by rw [append_filter_not_mem _ _ hdisj]
    _ = l := List.take_append_drop k l

theorem fillIndices_range (m : ℕ) :
    ∀ (k a : ℕ) (acc : List ℕ), acc.length < m → m - acc.length ≤ k →
      (∀ n ∈ List.range' a k, n ∉ acc) →
      fillIndices (List.range' a k) m acc = acc ++ List.range' a (m - acc.length) := by
  intro k
  induction k with
  | zero =>
    intro a acc h1 h2 _
    omega
  | succ k ih =>
    intro a acc h1 h2 hnot
    rw [List.range'_succ]
    simp only [fillIndices]
    have hna : a ∉ acc := hnot a (by rw [List.range'_succ]; exact List.mem_cons_self _ _)
    rw [if_neg hna]
    by_cases hstop : (acc ++ [a]).length = m
    · rw [if_pos hstop]
      have hm : m - acc.length = 1 := by
        simp only [List.length_append, List.length_singleton] at hstop
        omega
      rw [hm, List.range'_one]
    · rw [if_neg hstop]
      have hlen2 : (acc ++ [a]).length < m := by
        simp only [List.length_append, List.length_singleton] at hstop ⊢
        omega
      have h2b : m - (acc ++ [a]).length ≤ k := by
        simp only [List.length_append, List.length_singleton]
        omega
      have hnot2 : ∀ n ∈ List.range' (a + 1) k, n ∉ acc ++ [a] := by
        intro n hn
        have hge : a + 1 ≤ n := (List.mem_range'_1.1 hn).1
        simp only [List.mem_append, List.mem_singleton]
        push_neg
        refine ⟨hnot n ?_, by omega⟩
        rw [List.range'_succ]
        exact List.mem_cons_of_mem _ hn
      rw [ih (a + 1) (acc ++ [a]) hlen2 h2b hnot2]
      rw [List.append_assoc]
      congr 1
      have hsplit : m - acc.length = (m - (acc ++ [a]).length) + 1 := by
        simp only [List.length_append, List.length_singleton]
        omega
      rw [hsplit, List.range'_succ]
      rfl

theorem parseSelection_garbage (total limit : ℕ) (h1 : 0 < limit) (h2 : limit ≤ total) :
    parseSelection "not a valid response" total limit = List.range' 1 limit := by
  have hcand : (((pySplitOnStr
      (pyReplaceStr "not a valid response" "\n" " ") ",").map pyStrip).filter
        isDigits).map (fun t => digitsToNat t.data) = ([] : List ℕ) := rfl
  have hscan : scanBoundedNumbers true []
      ((pySplitOnStr "not a valid response" ":").getLastD "").data = ([] : List ℕ) := rfl
  simp only [parseSelection, hcand, hscan, if_pos rfl, pickIndices]
  rw [if_pos (by simpa using h1)]
  have hfill := fillIndices_range limit total 1 [] (by simpa using h1)
    (by simpa using h2) (by simp)
  simpa using hfill

theorem map_getD_range (d : FeedEntry) (l : List FeedEntry) :
    ∀ (m a : ℕ), a + m ≤ l.length →
      (List.range' (a + 1) m).map (fun i => l.getD (i - 1) d) = (l.drop a).take m := by
  intro m
  induction m with
  | zero => intro a _; simp
  | succ m ih =>
    intro a hle
    rw [List.range'_succ]
    simp only [List.map_cons]
    have ha : a < l.length := by omega
    have hdrop : l.drop a = l[a] :: l.drop (a + 1) := List.drop_eq_getElem_cons ha
    rw [hdrop]
    simp only [List.take_succ_cons]
    congr 1
    · simp only [Nat.add_sub_cancel]
      exact List.getD_eq_getElem l d ha
    · have := ih (a + 1) (by omega)
      simpa using this

/-! ### Selection machinery: pass invariants -/

theorem groupCount_append (g : String) (l1 l2 : List FeedEntry) :
    groupCount g (l1 ++ l2) = groupCount g l1 + groupCount g l2 := by
  simp [groupCount, List.filter_append]

theorem groupCount_snoc (g : String) (l : List FeedEntry) (e : FeedEntry) :
    groupCount g (l ++ [e]) =
      groupCount g l + (if selectionSourceLabel e = g then 1 else 0) := by
  rw [groupCount_append]
  congr 1
  by_cases hgg : selectionSourceLabel e = g
  · simp [groupCount, List.filter_cons, hgg]
  · simp [groupCount, List.filter_cons, hgg]

theorem hitsSourceCap_eq_decide (e : FeedEntry) (sel : List FeedEntry) (c : ℕ) :
    hitsSourceCap e sel (some c) = decide (c ≤ groupCount (selectionSourceLabel e) sel) := by
  rfl

theorem hitsSourceCap_mono (e : FeedEntry) (sel ext : List FeedEntry) (cap : Option ℕ)
    (h : hitsSourceCap e sel cap = true) : hitsSourceCap e (sel ++ ext) cap = true := by
  cases cap with
  | none => simpa [hitsSourceCap] using h
  | some c =>
    rw [hitsSourceCap_eq_decide] at h ⊢
    rw [decide_eq_true_eq] at h ⊢
    rw [groupCount_append]
    omega

theorem nodup_snoc {α : Type} (sel : List α) (e : α)
    (h : sel.Nodup) (hnot : e ∉ sel) : (sel ++ [e]).Nodup := by
  refine List.Nodup.append h (List.nodup_singleton e) ?_
  intro a ha hb
  rw [List.mem_singleton] at hb
  exact hnot (hb ▸ ha)

theorem selectionPass1_spec (pyo : PyOracles) (meta : String → EntryMeta)
    (limit : ℕ) (cap : Option ℕ) :
    ∀ (rem sel dl : List FeedEntry),
      (sel.length ≤ limit →
        (selectionPass1 pyo meta limit cap rem sel dl).1.length ≤ limit) ∧
      (∀ x ∈ (selectionPass1 pyo meta limit cap rem sel dl).1, x ∈ sel ∨ x ∈ rem) ∧
      (∀ x ∈ (selectionPass1 pyo meta limit cap rem sel dl).2, x ∈ dl ∨ x ∈ rem) ∧
      ((sel ++ dl ++ rem).Nodup →
        ((selectionPass1 pyo meta limit cap rem sel dl).1 ++
          (selectionPass1 pyo meta limit cap rem sel dl).2).Nodup) ∧
      (∀ c, cap = some c → (∀ g, groupCount g sel ≤ c) →
        ∀ g, groupCount g (selectionPass1 pyo meta limit cap rem sel dl).1 ≤ c) := by
  intro rem
  induction rem with
  | nil =>
    intro sel dl
    simp only [selectionPass1]
    refine ⟨fun h => h, fun x hx => Or.inl hx, fun x hx => Or.inl hx, ?_, ?_⟩
    · intro h
      simpa using h
    · intro c hc hg g
      exact hg g
  | cons e rest ih =>
    intro sel dl
    simp only [selectionPass1]
    by_cases h1 : limit ≤ sel.length
    · rw [if_pos h1]
      refine ⟨fun h => h, fun x hx => Or.inl hx, fun x hx => Or.inl hx, ?_, ?_⟩
      · intro h
        have hflat : ((sel ++ dl) ++ (e :: rest)).Nodup := by simpa using h
        exact hflat.sublist (List.sublist_append_left _ _)
      · intro c hc hg g
        exact hg g
    · rw [if_neg h1]
      by_cases h2 : isNearDuplicateSel pyo e sel = true
      · rw [if_pos h2]
        obtain ⟨l1, s1, d1, n1, c1⟩ := ih sel dl
        refine ⟨l1, ?_, ?_, ?_, c1⟩
        · intro x hx
          rcases s1 x hx with hl | hr
          · exact Or.inl hl
          · exact Or.inr (List.mem_cons_of_mem _ hr)
        · intro x hx
          rcases d1 x hx with hl | hr
          · exact Or.inl hl
          · exact Or.inr (List.mem_cons_of_mem _ hr)
        · intro h
          refine n1 ?_
          have hflat : ((sel ++ dl) ++ (e :: rest)).Nodup := by simpa using h
          have hsub : List.Sublist ((sel ++ dl) ++ rest) ((sel ++ dl) ++ e :: rest) :=
            List.Sublist.append_left (List.sublist_cons_self _ _) _
          simpa using hflat.sublist hsub
      · rw [if_neg h2]
        have deferCase :
            (sel.length ≤ limit →
              (selectionPass1 pyo meta limit cap rest sel (dl ++ [e])).1.length ≤ limit) ∧
            (∀ x ∈ (selectionPass1 pyo meta limit cap rest sel (dl ++ [e])).1,
              x ∈ sel ∨ x ∈ e :: rest) ∧
            (∀ x ∈ (selectionPass1 pyo meta limit cap rest sel (dl ++ [e])).2,
              x ∈ dl ∨ x ∈ e :: rest) ∧
            ((sel ++ dl ++ (e :: rest)).Nodup →
              ((selectionPass1 pyo meta limit cap rest sel (dl ++ [e])).1 ++
                (selectionPass1 pyo meta limit cap rest sel (dl ++ [e])).2).Nodup) ∧
            (∀ c, cap = some c → (∀ g, groupCount g sel ≤ c) →
              ∀ g, groupCount g (selectionPass1 pyo meta limit cap rest sel (dl ++ [e])).1 ≤ c) := by
          obtain ⟨l1, s1, d1, n1, c1⟩ := ih sel (dl ++ [e])
          refine ⟨l1, ?_, ?_, ?_, c1⟩
          · intro x hx
            rcases s1 x hx with hl | hr
            · exact Or.inl hl
            · exact Or.inr (List.mem_cons_of_mem _ hr)
          · intro x hx
            rcases d1 x hx with hl | hr
            · rcases List.mem_append.1 hl with hd | hs
              · exact Or.inl hd
              · exact Or.inr (List.mem_singleton.1 hs ▸ List.mem_cons_self _ _)
            · exact Or.inr (List.mem_cons_of_mem _ hr)
          · intro h
            refine n1 ?_
            have heq : sel ++ (dl ++ [e]) ++ rest = sel ++ dl ++ e :: rest := by
              simp
            rw [heq]
            exact h
        by_cases h3 : hitsSourceCap e sel cap = true
        · rw [if_pos h3]
          exact deferCase
        · rw [if_neg h3]
          by_cases h4 : violatesDiversity e sel rest meta = true
          · rw [if_pos h4]
            exact deferCase
          · rw [if_neg h4]
            by_cases h5 : ((meta e.link).is_low_info || (meta e.link).is_admin) = true
            · rw [if_pos h5]
              exact deferCase
            · rw [if_neg h5]
              obtain ⟨l1, s1, d1, n1, c1⟩ := ih (sel ++ [e]) dl
              refine ⟨?_, ?_, ?_, ?_, ?_⟩
              · intro h
                refine l1 ?_
                simp only [List.length_append, List.length_singleton]
                omega
              · intro x hx
                rcases s1 x hx with hl | hr
                · rcases List.mem_append.1 hl with hs | he
                  · exact Or.inl hs
                  · exact Or.inr (List.mem_singleton.1 he ▸ List.mem_cons_self _ _)
                · exact Or.inr (List.mem_cons_of_mem _ hr)
              · intro x hx
                rcases d1 x hx with hl | hr
                · exact Or.inl hl
                · exact Or.inr (List.mem_cons_of_mem _ hr)
              · intro h
                have hflat : ((sel ++ dl) ++ (e :: rest)).Nodup := by simpa using h
                have hn2 : (e :: ((sel ++ dl) ++ rest)).Nodup :=
                  List.perm_middle.nodup hflat
                have hn3 : (e :: (sel ++ (dl ++ rest))).Nodup := by
                  simpa [List.append_assoc] using hn2
                have hn4 : (sel ++ e :: (dl ++ rest)).Nodup :=
                  List.perm_middle.symm.nodup hn3
                refine n1 ?_
                have heq2 : ((sel ++ [e]) ++ dl) ++ rest = sel ++ e :: (dl ++ rest) := by
                  simp
                show (((sel ++ [e]) ++ dl) ++ rest).Nodup
                rw [heq2]
                exact hn4
              · intro c hc hg
                refine c1 c hc ?_
                intro g
                rw [groupCount_snoc]
                by_cases hgg : selectionSourceLabel e = g
                · rw [if_pos hgg]
                  have hlt : ¬ (c ≤ groupCount (selectionSourceLabel e) sel) := by
                    rw [hc, hitsSourceCap_eq_decide] at h3
                    simpa using h3
                  rw [← hgg]
                  have := hg g
                  rw [← hgg] at this
                  omega
                · rw [if_neg hgg]
                  simpa using hg g

theorem selectionPass2_spec (pyo : PyOracles) (limit : ℕ) (cap : Option ℕ) :
    ∀ (rem sel : List FeedEntry),
      (sel.length ≤ limit → (selectionPass2 pyo limit cap rem sel).length ≤ limit) ∧
      (∀ x ∈ selectionPass2 pyo limit cap rem sel, x ∈ sel ∨ x ∈ rem) ∧
      ((sel ++ rem).Nodup → (selectionPass2 pyo limit cap rem sel).Nodup) ∧
      (∀ c, cap = some c → (∀ g, groupCount g sel ≤ c) →
        ∀ g, groupCount g (selectionPass2 pyo limit cap rem sel) ≤ c) := by
  intro rem
  induction rem with
  | nil =>
    intro sel
    simp only [selectionPass2]
    refine ⟨fun h => h, fun x hx => Or.inl hx, ?_, fun c hc hg g => hg g⟩
    intro h
    simpa using h
  | cons e rest ih =>
    intro sel
    simp only [selectionPass2]
    by_cases h1 : limit ≤ sel.length
    · rw [if_pos h1]
      refine ⟨fun h => h, fun x hx => Or.inl hx, ?_, fun c hc hg g => hg g⟩
      intro h
      exact h.sublist (List.sublist_append_left _ _)
    · rw [if_neg h1]
      have skipCase :
          (sel.length ≤ limit → (selectionPass2 pyo limit cap rest sel).length ≤ limit) ∧
          (∀ x ∈ selectionPass2 pyo limit cap rest sel, x ∈ sel ∨ x ∈ e :: rest) ∧
          ((sel ++ e :: rest).Nodup → (selectionPass2 pyo limit cap rest sel).Nodup) ∧
          (∀ c, cap = some c → (∀ g, groupCount g sel ≤ c) →
            ∀ g, groupCount g (selectionPass2 pyo limit cap rest sel) ≤ c) := by
        obtain ⟨l1, s1, n1, c1⟩ := ih sel
        refine ⟨l1, ?_, ?_, c1⟩
        · intro x hx
          rcases s1 x hx with hl | hr
          · exact Or.inl hl
          · exact Or.inr (List.mem_cons_of_mem _ hr)
        · intro h
          refine n1 ?_
          exact h.sublist (List.Sublist.append_left (List.sublist_cons_self _ _) _)
      by_cases h2 : isNearDuplicateSel pyo e sel = true
      · rw [if_pos h2]
        exact skipCase
      · rw [if_neg h2]
        by_cases h3 : hitsSourceCap e sel cap = true
        · rw [if_pos h3]
          exact skipCase
        · rw [if_neg h3]
          obtain ⟨l1, s1, n1, c1⟩ := ih (sel ++ [e])
          refine ⟨?_, ?_, ?_, ?_⟩
          · intro h
            refine l1 ?_
            simp only [List.length_append, List.length_singleton]
            omega
          · intro x hx
            rcases s1 x hx with hl | hr
            · rcases List.mem_append.1 hl with hs | hsing
              · exact Or.inl hs
              · exact Or.inr (List.mem_singleton.1 hsing ▸ List.mem_cons_self _ _)
            · exact Or.inr (List.mem_cons_of_mem _ hr)
          · intro h
            refine n1 ?_
            have heq : (sel ++ [e]) ++ rest = sel ++ e :: rest := by simp
            rw [heq]
            exact h
          · intro c hc hg
            refine c1 c hc ?_
            intro g
            rw [groupCount_snoc]
            by_cases hgg : selectionSourceLabel e = g
            · rw [if_pos hgg]
              have hlt : ¬ (c ≤ groupCount (selectionSourceLabel e) sel) := by
                rw [hc, hitsSourceCap_eq_decide] at h3
                simpa using h3
              have hgle := hg g
              rw [← hgg] at hgle ⊢
              omega
            · rw [if_neg hgg]
              simpa using hg g

theorem selectionPass3_spec (pyo : PyOracles) (limit : ℕ) (cap : Option ℕ) :
    ∀ (rem sel : List FeedEntry),
      (∃ ext, selectionPass3 pyo limit cap rem sel = sel ++ ext) ∧
      (sel.length ≤ limit → (selectionPass3 pyo limit cap rem sel).length ≤ limit) ∧
      (∀ x ∈ selectionPass3 pyo limit cap rem sel, x ∈ sel ∨ x ∈ rem) ∧
      (sel.Nodup → (selectionPass3 pyo limit cap rem sel).Nodup) ∧
      (∀ c, cap = some c → (∀ g, groupCount g sel ≤ c) →
        ∀ g, groupCount g (selectionPass3 pyo limit cap rem sel) ≤ c) := by
  intro rem
  induction rem with
  | nil =>
    intro sel
    simp only [selectionPass3]
    exact ⟨⟨[], by simp⟩, fun h => h, fun x hx => Or.inl hx, fun h => h,
      fun c hc hg g => hg g⟩
  | cons e rest ih =>
    intro sel
    simp only [selectionPass3]
    by_cases h1 : limit ≤ sel.length
    · rw [if_pos h1]
      exact ⟨⟨[], by simp⟩, fun h => h, fun x hx => Or.inl hx, fun h => h,
        fun c hc hg g => hg g⟩
    · rw [if_neg h1]
      have skipCase :
          (∃ ext, selectionPass3 pyo limit cap rest sel = sel ++ ext) ∧
          (sel.length ≤ limit → (selectionPass3 pyo limit cap rest sel).length ≤ limit) ∧
          (∀ x ∈ selectionPass3 pyo limit cap rest sel, x ∈ sel ∨ x ∈ e :: rest) ∧
          (sel.Nodup → (selectionPass3 pyo limit cap rest sel).Nodup) ∧
          (∀ c, cap = some c → (∀ g, groupCount g sel ≤ c) →
            ∀ g, groupCount g (selectionPass3 pyo limit cap rest sel) ≤ c) := by
        obtain ⟨p1, l1, s1, n1, c1⟩ := ih sel
        refine ⟨p1, l1, ?_, n1, c1⟩
        intro x hx
        rcases s1 x hx with hl | hr
        · exact Or.inl hl
        · exact Or.inr (List.mem_cons_of_mem _ hr)
      by_cases h2 : e ∈ sel
      · rw [if_pos h2]
        exact skipCase
      · rw [if_neg h2]
        by_cases h3 : isNearDuplicateSel pyo e sel = true
        · rw [if_pos h3]
          exact skipCase
        · rw [if_neg h3]
          by_cases h4 : hitsSourceCap e sel cap = true
          · rw [if_pos h4]
            exact skipCase
          · rw [if_neg h4]
            obtain ⟨p1, l1, s1, n1, c1⟩ := ih (sel ++ [e])
            refine ⟨?_, ?_, ?_, ?_, ?_⟩
            · obtain ⟨ext, hext⟩ := p1
              exact ⟨[e] ++ ext, by rw [hext, List.append_assoc]⟩
            · intro h
              refine l1 ?_
              simp only [List.length_append, List.length_singleton]
              omega
            · intro x hx
              rcases s1 x hx with hl | hr
              · rcases List.mem_append.1 hl with hs | hsing
                · exact Or.inl hs
                · exact Or.inr (List.mem_singleton.1 hsing ▸ List.mem_cons_self _ _)
              · exact Or.inr (List.mem_cons_of_mem _ hr)
            · intro h
              exact n1 (nodup_snoc sel e h h2)
            · intro c hc hg
              refine c1 c hc ?_
              intro g
              rw [groupCount_snoc]
              by_cases hgg : selectionSourceLabel e = g
              · rw [if_pos hgg]
                have hlt : ¬ (c ≤ groupCount (selectionSourceLabel e) sel) := by
                  rw [hc, hitsSourceCap_eq_decide] at h4
                  simpa using h4
                have hgle := hg g
                rw [← hgg] at hgle ⊢
                omega
              · rw [if_neg hgg]
                simpa using hg g

theorem isNearDuplicateSel_elim {pyo : PyOracles} {e : FeedEntry} {sel : List FeedEntry}
    (h : isNearDuplicateSel pyo e sel = true) :
    ∃ ex ∈ sel, pyo.getHostname ex.link = pyo.getHostname e.link := by
  obtain ⟨ex, hex, hpred⟩ := List.any_eq_true.1 h
  rw [Bool.and_eq_true] at hpred
  exact ⟨ex, hex, by simpa using hpred.1⟩

theorem selectionPass3_blocked (pyo : PyOracles) (limit : ℕ) (cap : Option ℕ)
    (P : List FeedEntry)
    (hnd : ∀ a ∈ P, ∀ b ∈ P, pyo.getHostname a.link = pyo.getHostname b.link → a = b) :
    ∀ (rem sel : List FeedEntry), (∀ x ∈ rem, x ∈ P) → (∀ x ∈ sel, x ∈ P) →
      (selectionPass3 pyo limit cap rem sel).length < limit →
      ∀ e ∈ rem, e ∈ selectionPass3 pyo limit cap rem sel ∨
        hitsSourceCap e (selectionPass3 pyo limit cap rem sel) cap = true := by
  intro rem
  induction rem with
  | nil =>
    intro sel _ _ _ e he
    simp at he
  | cons x rest ih =>
    intro sel hremP hselP hlt e he
    simp only [selectionPass3] at hlt ⊢
    by_cases h1 : limit ≤ sel.length
    · rw [if_pos h1] at hlt ⊢
      omega
    · rw [if_neg h1] at hlt ⊢
      by_cases h2 : x ∈ sel
      · rw [if_pos h2] at hlt ⊢
        rcases List.mem_cons.1 he with rfl | hrest
        · obtain ⟨ext, hext⟩ := (selectionPass3_spec pyo limit cap rest sel).1
          exact Or.inl (by rw [hext]; exact List.mem_append_left _ h2)
        · exact ih sel (fun y hy => hremP y (List.mem_cons_of_mem _ hy)) hselP hlt e hrest
      · rw [if_neg h2] at hlt ⊢
        by_cases h3 : isNearDuplicateSel pyo x sel = true
        · obtain ⟨ex, hexsel, hexhost⟩ := isNearDuplicateSel_elim h3
          have hxeq : ex = x := hnd ex (hselP ex hexsel) x (hremP x (List.mem_cons_self _ _))
            hexhost
          exact absurd (hxeq ▸ hexsel) h2
        · rw [if_neg h3] at hlt ⊢
          by_cases h4 : hitsSourceCap x sel cap = true
          · rw [if_pos h4] at hlt ⊢
            rcases List.mem_cons.1 he with rfl | hrest
            · obtain ⟨ext, hext⟩ := (selectionPass3_spec pyo limit cap rest sel).1
              refine Or.inr ?_
              rw [hext]
              exact hitsSourceCap_mono e sel ext cap h4
            · exact ih sel (fun y hy => hremP y (List.mem_cons_of_mem _ hy)) hselP hlt e hrest
          · rw [if_neg h4] at hlt ⊢
            have hselP2 : ∀ y ∈ sel ++ [x], y ∈ P := by
              intro y hy
              rcases List.mem_append.1 hy with hs | hsing
              · exact hselP y hs
              · exact List.mem_singleton.1 hsing ▸ hremP x (List.mem_cons_self _ _)
            rcases List.mem_cons.1 he with rfl | hrest
            · obtain ⟨ext, hext⟩ := (selectionPass3_spec pyo limit cap rest (sel ++ [e])).1
              refine Or.inl ?_
              rw [hext]
              exact List.mem_append_left _ (List.mem_append_right _ (List.mem_singleton.2 rfl))
            · exact ih (sel ++ [x]) (fun y hy => hremP y (List.mem_cons_of_mem _ hy)) hselP2
                hlt e hrest

theorem applySelectionConstraints_spec (pyo : PyOracles) (meta : String → EntryMeta)
    (limit : ℕ) (cap : Option ℕ) (chosen ranked P : List FeedEntry)
    (hP : chosen ++ ranked.filter (fun e => e ∉ chosen) = P)
    (hPnodup : P.Nodup)
    (hnd : ∀ a ∈ P, ∀ b ∈ P, pyo.getHostname a.link = pyo.getHostname b.link → a = b) :
    (applySelectionConstraints pyo chosen ranked meta limit cap).length ≤ limit ∧
    (∀ x ∈ applySelectionConstraints pyo chosen ranked meta limit cap, x ∈ P) ∧
    (applySelectionConstraints pyo chosen ranked meta limit cap).Nodup ∧
    (∀ c, cap = some c → ∀ g,
      groupCount g (applySelectionConstraints pyo chosen ranked meta limit cap) ≤ c) ∧
    ((applySelectionConstraints pyo chosen ranked meta limit cap).length < limit →
      ∀ e ∈ P, e ∈ applySelectionConstraints pyo chosen ranked meta limit cap ∨
        hitsSourceCap e (applySelectionConstraints pyo chosen ranked meta limit cap) cap
          = true) := by
  simp only [applySelectionConstraints, hP]
  obtain ⟨l1, s1, d1, n1, c1⟩ := selectionPass1_spec pyo meta limit cap P [] []
  obtain ⟨l2, s2, n2, c2⟩ := selectionPass2_spec pyo limit cap
    (selectionPass1 pyo meta limit cap P [] []).2 (selectionPass1 pyo meta limit cap P [] []).1
  have hsel1len : (selectionPass1 pyo meta limit cap P [] []).1.length ≤ limit :=
    l1 (by simp)
  have hsel1P : ∀ x ∈ (selectionPass1 pyo meta limit cap P [] []).1, x ∈ P := by
    intro x hx
    rcases s1 x hx with h | h
    · simp at h
    · exact h
  have hdef1P : ∀ x ∈ (selectionPass1 pyo meta limit cap P [] []).2, x ∈ P := by
    intro x hx
    rcases d1 x hx with h | h
    · simp at h
    · exact h
  have hnodup01 : ((selectionPass1 pyo meta limit cap P [] []).1 ++
      (selectionPass1 pyo meta limit cap P [] []).2).Nodup := n1 (by simpa using hPnodup)
  have hsel2len : (selectionPass2 pyo limit cap (selectionPass1 pyo meta limit cap P [] []).2
      (selectionPass1 pyo meta limit cap P [] []).1).length ≤ limit := l2 hsel1len
  have hsel2P : ∀ x ∈ selectionPass2 pyo limit cap (selectionPass1 pyo meta limit cap P [] []).2
      (selectionPass1 pyo meta limit cap P [] []).1, x ∈ P := by
    intro x hx
    rcases s2 x hx with h | h
    · exact hsel1P x h
    · exact hdef1P x h
  have hsel2nodup : (selectionPass2 pyo limit cap (selectionPass1 pyo meta limit cap P [] []).2
      (selectionPass1 pyo meta limit cap P [] []).1).Nodup := n2 hnodup01
  have hcap2 : ∀ c, cap = some c → ∀ g,
      groupCount g (selectionPass2 pyo limit cap (selectionPass1 pyo meta limit cap P [] []).2
        (selectionPass1 pyo meta limit cap P [] []).1) ≤ c := by
    intro c hc g
    refine c2 c hc (fun g2 => ?_) g
    refine c1 c hc (fun g3 => ?_) g2
    simp [groupCount]
  by_cases hfin : (selectionPass2 pyo limit cap (selectionPass1 pyo meta limit cap P [] []).2
      (selectionPass1 pyo meta limit cap P [] []).1).length < limit
  · rw [if_pos hfin]
    obtain ⟨p3, l3, s3, n3, c3⟩ := selectionPass3_spec pyo limit cap P
      (selectionPass2 pyo limit cap (selectionPass1 pyo meta limit cap P [] []).2
        (selectionPass1 pyo meta limit cap P [] []).1)
    refine ⟨l3 (le_of_lt hfin), ?_, n3 hsel2nodup, ?_, ?_⟩
    · intro x hx
      rcases s3 x hx with h | h
      · exact hsel2P x h
      · exact h
    · intro c hc g
      exact c3 c hc (fun g2 => hcap2 c hc g2) g
    · intro hlen e heP
      exact selectionPass3_blocked pyo limit cap P hnd P _ (fun x hx => hx) hsel2P hlen e heP
  · rw [if_neg hfin]
    refine ⟨hsel2len, hsel2P, hsel2nodup, hcap2, ?_⟩
    intro hlen
    exact absurd hlen hfin

theorem applySelectionConstraints_pool_congr (pyo : PyOracles) (meta : String → EntryMeta)
    (limit : ℕ) (cap : Option ℕ) (chosen1 chosen2 ranked : List FeedEntry)
    (h : chosen1 ++ ranked.filter (fun e => e ∉ chosen1) =
      chosen2 ++ ranked.filter (fun e => e ∉ chosen2)) :
    applySelectionConstraints pyo chosen1 ranked meta limit cap =
      applySelectionConstraints pyo chosen2 ranked meta limit cap := by
  simp only [applySelectionConstraints, h]

/-- C8: on a pool of at least `limit` records with pairwise distinct
hostnames (no near-duplicate bottleneck) and no source cap, a ranker
response of `"not a valid response"` still yields exactly `limit` records,
and the result is identical to the constraint pass applied to the pure
quality-ranked order (the no-ranker selection). -/
theorem malformed_ranker_tolerance (pyo : PyOracles) (entries : List FeedEntry)
    (topic : String) (limit : ℕ)
    (htopic : topic ≠ LOCAL_NEWS_TOPIC)
    (hnodup : entries.Nodup)
    (hpos : 0 < limit)
    (hlen : limit ≤ entries.length)
    (hnd : ∀ a ∈ entries, ∀ b ∈ entries,
      pyo.getHostname a.link = pyo.getHostname b.link → a = b) :
    selectTopItems pyo none (Except.ok "not a valid response") entries topic limit =
      Except.ok (applySelectionConstraints pyo
        (rankEntries pyo topic entries (metaByLink pyo entries))
        (rankEntries pyo topic entries (metaByLink pyo entries))
        (metaByLink pyo entries) limit none) ∧
    (applySelectionConstraints pyo
        (rankEntries pyo topic entries (metaByLink pyo entries))
        (rankEntries pyo topic entries (metaByLink pyo entries))
        (metaByLink pyo entries) limit none).length = limit := by
  have hperm : List.Perm (rankEntries pyo topic entries (metaByLink pyo entries)) entries :=
    rankEntries_perm pyo topic entries (metaByLink pyo entries)
  have hrnodup : (rankEntries pyo topic entries (metaByLink pyo entries)).Nodup :=
    hperm.symm.nodup hnodup
  have hrlen : (rankEntries pyo topic entries (metaByLink pyo entries)).length
      = entries.length := hperm.length_eq
  have hrnd : ∀ a ∈ rankEntries pyo topic entries (metaByLink pyo entries),
      ∀ b ∈ rankEntries pyo topic entries (metaByLink pyo entries),
      pyo.getHostname a.link = pyo.getHostname b.link → a = b := by
    intro a ha b hb hh
    exact hnd a (hperm.mem_iff.1 ha) b (hperm.mem_iff.1 hb) hh
  have hpool2 : rankEntries pyo topic entries (metaByLink pyo entries) ++
      (rankEntries pyo topic entries (metaByLink pyo entries)).filter
        (fun e => e ∉ rankEntries pyo topic entries (metaByLink pyo entries)) =
      rankEntries pyo topic entries (metaByLink pyo entries) := by
    rw [filter_not_mem_self, List.append_nil]
  obtain ⟨hle, hmem, hresnodup, _, hblocked⟩ := applySelectionConstraints_spec pyo
    (metaByLink pyo entries) limit none
    (rankEntries pyo topic entries (metaByLink pyo entries))
    (rankEntries pyo topic entries (metaByLink pyo entries))
    (rankEntries pyo topic entries (metaByLink pyo entries)) hpool2 hrnodup hrnd
  have hexact : (applySelectionConstraints pyo
      (rankEntries pyo topic entries (metaByLink pyo entries))
      (rankEntries pyo topic entries (metaByLink pyo entries))
      (metaByLink pyo entries) limit none).length = limit := by
    by_contra hne
    have hlt : (applySelectionConstraints pyo
        (rankEntries pyo topic entries (metaByLink pyo entries))
        (rankEntries pyo topic entries (metaByLink pyo entries))
        (metaByLink pyo entries) limit none).length < limit := lt_of_le_of_ne hle hne
    have hall : ∀ e ∈ rankEntries pyo topic entries (metaByLink pyo entries),
        e ∈ applySelectionConstraints pyo
          (rankEntries pyo topic entries (metaByLink pyo entries))
          (rankEntries pyo topic entries (metaByLink pyo entries))
          (metaByLink pyo entries) limit none := by
      intro e he
      rcases hblocked hlt e he with h | h
      · exact h
      · simp [hitsSourceCap] at h
    have hsub := (List.subperm_of_subset hrnodup hall).length_le
    omega
  refine ⟨?_, hexact⟩
  simp only [selectTopItems, if_neg htopic]
  by_cases hcase : entries.length ≤ limit
  · rw [if_pos hcase]
  · rw [if_neg hcase]
    have hparse : parseSelection "not a valid response"
        (rankEntries pyo topic entries (metaByLink pyo entries)).length limit =
        List.range' 1 limit :=
      parseSelection_garbage _ _ hpos (by omega)
    have hchosen : (parseSelection "not a valid response"
        (rankEntries pyo topic entries (metaByLink pyo entries)).length limit).map
          (fun i => (rankEntries pyo topic entries (metaByLink pyo entries)).getD (i - 1)
            defaultEntry) =
        (rankEntries pyo topic entries (metaByLink pyo entries)).take limit := by
      rw [hparse]
      have hmr := map_getD_range defaultEntry
        (rankEntries pyo topic entries (metaByLink pyo entries)) limit 0 (by omega)
      simpa using hmr
    rw [hchosen]
    have hpool1 : (rankEntries pyo topic entries (metaByLink pyo entries)).take limit ++
        (rankEntries pyo topic entries (metaByLink pyo entries)).filter
          (fun e => e ∉ (rankEntries pyo topic entries (metaByLink pyo entries)).take limit) =
        rankEntries pyo topic entries (metaByLink pyo entries) :=
      take_append_filter_not_mem _ hrnodup limit
    rw [applySelectionConstraints_pool_congr pyo (metaByLink pyo entries) limit none
      _ _ _ (hpool1.trans hpool2.symm)]

/-! ### Selection machinery: parse output bounds and counting lemmas -/

theorem pickIndices_spec (total limit : ℕ) :
    ∀ (cands : List ℕ) (acc : List ℕ), acc.Nodup → (∀ i ∈ acc, 1 ≤ i ∧ i ≤ total) →
      (pickIndices cands total limit acc).Nodup ∧
      (∀ i ∈ pickIndices cands total limit acc, 1 ≤ i ∧ i ≤ total) := by
  intro cands
  induction cands with
  | nil =>
    intro acc h1 h2
    exact ⟨h1, h2⟩
  | cons n rest ih =>
    intro acc h1 h2
    simp only [pickIndices]
    by_cases hv : 1 ≤ n ∧ n ≤ total ∧ n ∉ acc
    · rw [if_pos hv]
      have h1b : (acc ++ [n]).Nodup := nodup_snoc acc n h1 hv.2.2
      have h2b : ∀ i ∈ acc ++ [n], 1 ≤ i ∧ i ≤ total := by
        intro i hi
        rcases List.mem_append.1 hi with ha | hn
        · exact h2 i ha
        · rcases List.mem_singleton.1 hn with rfl
          exact ⟨hv.1, hv.2.1⟩
      by_cases hstop : (acc ++ [n]).length = limit
      · rw [if_pos hstop]
        exact ⟨h1b, h2b⟩
      · rw [if_neg hstop]
        exact ih (acc ++ [n]) h1b h2b
    · rw [if_neg hv]
      by_cases hstop : acc.length = limit
      · rw [if_pos hstop]
        exact ⟨h1, h2⟩
      · rw [if_neg hstop]
        exact ih acc h1 h2

theorem fillIndices_spec (total limit : ℕ) :
    ∀ (rng : List ℕ) (acc : List ℕ), (∀ n ∈ rng, 1 ≤ n ∧ n ≤ total) →
      acc.Nodup → (∀ i ∈ acc, 1 ≤ i ∧ i ≤ total) →
      (fillIndices rng limit acc).Nodup ∧
      (∀ i ∈ fillIndices rng limit acc, 1 ≤ i ∧ i ≤ total) := by
  intro rng
  induction rng with
  | nil =>
    intro acc _ h1 h2
    exact ⟨h1, h2⟩
  | cons n rest ih =>
    intro acc hrng h1 h2
    simp only [fillIndices]
    have hrng2 : ∀ m ∈ rest, 1 ≤ m ∧ m ≤ total :=
      fun m hm => hrng m (List.mem_cons_of_mem _ hm)
    by_cases hv : n ∈ acc
    · rw [if_pos hv]
      by_cases hstop : acc.length = limit
      · rw [if_pos hstop]
        exact ⟨h1, h2⟩
      · rw [if_neg hstop]
        exact ih acc hrng2 h1 h2
    · rw [if_neg hv]
      have h1b : (acc ++ [n]).Nodup := nodup_snoc acc n h1 hv
      have h2b : ∀ i ∈ acc ++ [n], 1 ≤ i ∧ i ≤ total := by
        intro i hi
        rcases List.mem_append.1 hi with ha | hn2
        · exact h2 i ha
        · have hin : i = n := List.mem_singleton.1 hn2
          subst hin
          exact hrng i (List.mem_cons_self _ _)
      by_cases hstop : (acc ++ [n]).length = limit
      · rw [if_pos hstop]
        exact ⟨h1b, h2b⟩
      · rw [if_neg hstop]
        exact ih (acc ++ [n]) hrng2 h1b h2b

theorem parseSelection_spec (response : String) (total limit : ℕ) :
    (parseSelection response total limit).Nodup ∧
    (∀ i ∈ parseSelection response total limit, 1 ≤ i ∧ i ≤ total) := by
  simp only [parseSelection]
  obtain ⟨hn, hb⟩ := pickIndices_spec total limit
    (if ((((pySplitOnStr (pyReplaceStr response "\n" " ") ",").map pyStrip).filter
        isDigits).map (fun t => digitsToNat t.data)) = [] then
      scanBoundedNumbers true [] ((pySplitOnStr response ":").getLastD "").data
    else ((((pySplitOnStr (pyReplaceStr response "\n" " ") ",").map pyStrip).filter
        isDigits).map (fun t => digitsToNat t.data)))
    [] (List.nodup_nil) (by simp)
  by_cases hfill : (pickIndices (if ((((pySplitOnStr (pyReplaceStr response "\n" " ") ",").map
      pyStrip).filter isDigits).map (fun t => digitsToNat t.data)) = [] then
      scanBoundedNumbers true [] ((pySplitOnStr response ":").getLastD "").data
    else ((((pySplitOnStr (pyReplaceStr response "\n" " ") ",").map pyStrip).filter
        isDigits).map (fun t => digitsToNat t.data))) total limit []).length < limit
  · rw [if_pos hfill]
    refine fillIndices_spec total limit (List.range' 1 total) _ ?_ hn hb
    intro n hnn
    have hm := List.mem_range'_1.1 hnn
    omega
  · rw [if_neg hfill]
    exact ⟨hn, hb⟩

theorem filter_length_split {α : Type} (p : α → Bool) (l : List α) :
    (l.filter p).length + (l.filter (fun a => !(p a))).length = l.length := by
  induction l with
  | nil => simp
  | cons a rest ih =>
    cases hpa : p a with
    | true =>
      rw [List.filter_cons_of_pos (by simp [hpa]), List.filter_cons_of_neg (by simp [hpa])]
      simp only [List.length_cons]
      omega
    | false =>
      rw [List.filter_cons_of_neg (by simp [hpa]), List.filter_cons_of_pos (by simp [hpa])]
      simp only [List.length_cons]
      omega

theorem filter_pair_le {α : Type} (p q r : α → Bool)
    (hpq : ∀ a, p a = true → q a = true → False)
    (hpr : ∀ a, p a = true → r a = true)
    (hqr : ∀ a, q a = true → r a = true) (l : List α) :
    (l.filter p).length + (l.filter q).length ≤ (l.filter r).length := by
  induction l with
  | nil => simp
  | cons a rest ih =>
    cases hpa : p a with
    | true =>
      have hqa : q a = false := by
        cases hqa : q a
        · rfl
        · exact absurd (hpq a hpa hqa) not_false
      rw [List.filter_cons_of_pos hpa, List.filter_cons_of_neg (by simp [hqa]),
        List.filter_cons_of_pos (hpr a hpa)]
      simp only [List.length_cons]
      omega
    | false =>
      cases hqa : q a with
      | true =>
        rw [List.filter_cons_of_neg (by simp [hpa]), List.filter_cons_of_pos hqa,
          List.filter_cons_of_pos (hqr a hqa)]
        simp only [List.length_cons]
        omega
      | false =>
        rw [List.filter_cons_of_neg (by simp [hpa]), List.filter_cons_of_neg (by simp [hqa])]
        cases hra : r a with
        | true =>
          rw [List.filter_cons_of_pos hra]
          simp only [List.length_cons]
          omega
        | false =>
          rw [List.filter_cons_of_neg (by simp [hra])]
          omega

theorem filter_triple_le {α : Type} (p q s r : α → Bool)
    (hpq : ∀ a, p a = true → q a = true → False)
    (hps : ∀ a, p a = true → s a = true → False)
    (hqs : ∀ a, q a = true → s a = true → False)
    (hpr : ∀ a, p a = true → r a = true)
    (hqr : ∀ a, q a = true → r a = true)
    (hsr : ∀ a, s a = true → r a = true) (l : List α) :
    (l.filter p).length + (l.filter q).length + (l.filter s).length ≤
      (l.filter r).length := by
  have h1 := filter_pair_le p q r hpq hpr hqr l
  -- combine the p∨q filter with s: use an explicit disjunction predicate
  have h2 := filter_pair_le (fun a => p a || q a) s r
    (fun a hpq2 hs => by
      rw [Bool.or_eq_true] at hpq2
      rcases hpq2 with hp | hq
      · exact hps a hp hs
      · exact hqs a hq hs)
    (fun a hpq2 => by
      rw [Bool.or_eq_true] at hpq2
      rcases hpq2 with hp | hq
      · exact hpr a hp
      · exact hqr a hq)
    hsr l
  have h3 : (l.filter p).length + (l.filter q).length ≤
      (l.filter (fun a => p a || q a)).length := by
    refine filter_pair_le p q (fun a => p a || q a) hpq ?_ ?_ l
    · intro a hp
      simp [hp]
    · intro a hq
      simp [hq]
  omega

theorem selectTopItems_ranker_ok (pyo : PyOracles) (cap : Option ℕ) (resp : String)
    (entries : List FeedEntry) (topic : String) (limit : ℕ)
    (htopic : topic ≠ LOCAL_NEWS_TOPIC)
    (hgt : limit < entries.length) :
    selectTopItems pyo cap (Except.ok resp) entries topic limit =
      Except.ok (applySelectionConstraints pyo
        ((parseSelection resp (rankEntries pyo topic entries (metaByLink pyo entries)).length
            limit).map
          (fun i => (rankEntries pyo topic entries (metaByLink pyo entries)).getD (i - 1)
            defaultEntry))
        (rankEntries pyo topic entries (metaByLink pyo entries))
        (metaByLink pyo entries) limit cap) := by
  simp only [selectTopItems, if_neg htopic]
  rw [if_neg (by omega : ¬ entries.length ≤ limit)]

theorem mapGetD_parse_nodup (resp : String) (limit : ℕ) (ranked : List FeedEntry)
    (hnodup : ranked.Nodup) :
    ((parseSelection resp ranked.length limit).map
      (fun i => ranked.getD (i - 1) defaultEntry)).Nodup ∧
    (∀ x ∈ (parseSelection resp ranked.length limit).map
      (fun i => ranked.getD (i - 1) defaultEntry), x ∈ ranked) := by
  obtain ⟨hpn, hpb⟩ := parseSelection_spec resp ranked.length limit
  constructor
  · refine List.Nodup.map_on ?_ hpn
    intro i hi j hj hf
    have hbi := hpb i hi
    have hbj := hpb j hj
    have hi1 : i - 1 < ranked.length := by omega
    have hj1 : j - 1 < ranked.length := by omega
    rw [List.getD_eq_getElem ranked defaultEntry hi1,
      List.getD_eq_getElem ranked defaultEntry hj1] at hf
    have hinj := (List.Nodup.getElem_inj_iff hnodup).1 hf
    omega
  · intro x hx
    obtain ⟨i, hi, hxi⟩ := List.mem_map.1 hx
    have hbi := hpb i hi
    have hi1 : i - 1 < ranked.length := by omega
    rw [← hxi, List.getD_eq_getElem ranked defaultEntry hi1]
    exact List.getElem_mem _

theorem chosenPool_perm (chosen ranked : List FeedEntry)
    (hcn : chosen.Nodup) (hcsub : ∀ x ∈ chosen, x ∈ ranked) (hrn : ranked.Nodup) :
    (chosen ++ ranked.filter (fun e => e ∉ chosen)).Nodup ∧
    List.Perm (chosen ++ ranked.filter (fun e => e ∉ chosen)) ranked := by
  have hfn : (ranked.filter (fun e => e ∉ chosen)).Nodup := hrn.filter _
  have hdisj : List.Disjoint chosen (ranked.filter (fun e => e ∉ chosen)) := by
    intro a ha haf
    have h2 := (List.mem_filter.1 haf).2
    simp only [decide_not, Bool.not_eq_true', decide_eq_false_iff_not] at h2
    exact h2 ha
  have hPn : (chosen ++ ranked.filter (fun e => e ∉ chosen)).Nodup :=
    List.Nodup.append hcn hfn hdisj
  have hmem1 : ∀ x ∈ chosen ++ ranked.filter (fun e => e ∉ chosen), x ∈ ranked := by
    intro x hx
    rcases List.mem_append.1 hx with h | h
    · exact hcsub x h
    · exact (List.mem_filter.1 h).1
  have hmem2 : ∀ x ∈ ranked, x ∈ chosen ++ ranked.filter (fun e => e ∉ chosen) := by
    intro x hx
    by_cases hc : x ∈ chosen
    · exact List.mem_append_left _ hc
    · exact List.mem_append_right _ (List.mem_filter.2 ⟨hx, by simpa using hc⟩)
  have hsub1 := List.subperm_of_subset hPn hmem1
  have hsub2 := List.subperm_of_subset hrn hmem2
  exact ⟨hPn, hsub1.antisymm hsub2⟩

/-- **C9 (amended)** Source-cap with backfill: for a pool of 10 records of
which exactly 6 share source group `gA`, whose remaining records span at
least two further source groups, with pairwise distinct hostnames (so the
near-duplicate gate never fires between distinct records), selection with
`limit = 5` and `source_cap = 2` succeeds, returns at most 2 records of
group `gA`, and returns exactly 5 records in total. -/
theorem source_cap_with_backfill (pyo : PyOracles) (entries : List FeedEntry)
    (topic resp gA : String)
    (htopic : topic ≠ LOCAL_NEWS_TOPIC)
    (hnodup : entries.Nodup)
    (hlen : entries.length = 10)
    (hnd : ∀ a ∈ entries, ∀ b ∈ entries,
      pyo.getHostname a.link = pyo.getHostname b.link → a = b)
    (hA : (entries.filter (fun e => selectionSourceLabel e = gA)).length = 6)
    (hspan : ∃ x ∈ entries, ∃ y ∈ entries, selectionSourceLabel x ≠ gA ∧
      selectionSourceLabel y ≠ gA ∧ selectionSourceLabel x ≠ selectionSourceLabel y) :
    ∃ res, selectTopItems pyo (some 2) (Except.ok resp) entries topic 5 = Except.ok res ∧
      groupCount gA res ≤ 2 ∧ res.length = 5 := by
  have hgt : (5 : ℕ) < entries.length := by omega
  rw [selectTopItems_ranker_ok pyo (some 2) resp entries topic 5 htopic hgt]
  set meta := metaByLink pyo entries with hmetadef
  set ranked := rankEntries pyo topic entries meta with hrankeddef
  have hperm : List.Perm ranked entries := rankEntries_perm pyo topic entries meta
  have hrnodup : ranked.Nodup := hperm.symm.nodup hnodup
  obtain ⟨hcn, hcsub⟩ := mapGetD_parse_nodup resp 5 ranked hrnodup
  set chosen := (parseSelection resp ranked.length 5).map
    (fun i => ranked.getD (i - 1) defaultEntry) with hchosendef
  obtain ⟨hPn, hPperm⟩ := chosenPool_perm chosen ranked hcn hcsub hrnodup
  set P := chosen ++ ranked.filter (fun e => e ∉ chosen) with hPdef
  have hPentries : List.Perm P entries := hPperm.trans hperm
  have hndP : ∀ a ∈ P, ∀ b ∈ P, pyo.getHostname a.link = pyo.getHostname b.link → a = b := by
    intro a ha b hb
    exact hnd a (hPentries.mem_iff.1 ha) b (hPentries.mem_iff.1 hb)
  obtain ⟨hle, hmemP, hresnodup, hcapf, hblocked⟩ :=
    applySelectionConstraints_spec pyo meta 5 (some 2) chosen ranked P hPdef.symm hPn hndP
  set res := applySelectionConstraints pyo chosen ranked meta 5 (some 2) with hresdef
  have hcap : ∀ g, groupCount g res ≤ 2 := hcapf 2 rfl
  refine ⟨res, rfl, hcap gA, ?_⟩
  by_contra hne
  have hlt : res.length < 5 := lt_of_le_of_ne hle hne
  have hPlen : P.length = 10 := by rw [hPentries.length_eq, hlen]
  have hPA : (P.filter (fun e => selectionSourceLabel e = gA)).length = 6 :=
    ((hPentries.filter (fun e => decide (selectionSourceLabel e = gA))).length_eq).trans hA
  have hsplitP := filter_length_split (fun e => decide (selectionSourceLabel e = gA)) P
  have hPnotA : (P.filter (fun e => !(decide (selectionSourceLabel e = gA)))).length = 4 := by
    omega
  have hcapA := hcap gA
  have hgrcA : groupCount gA res
      = (res.filter (fun e => decide (selectionSourceLabel e = gA))).length := rfl
  -- Step A: the pass keeps exactly `cap` records of the big group.
  have hgA2 : groupCount gA res = 2 := by
    by_contra hne2
    have hlt2 : groupCount gA res < 2 := by omega
    have hsubA : ∀ x ∈ P.filter (fun e => decide (selectionSourceLabel e = gA)),
        x ∈ res.filter (fun e => decide (selectionSourceLabel e = gA)) := by
      intro x hx
      have hx1 := (List.mem_filter.1 hx).1
      have hx2 := (List.mem_filter.1 hx).2
      refine List.mem_filter.2 ⟨?_, hx2⟩
      rcases hblocked hlt x hx1 with h | h
      · exact h
      · exfalso
        rw [hitsSourceCap_eq_decide, decide_eq_true_eq] at h
        have hxg : selectionSourceLabel x = gA := of_decide_eq_true hx2
        rw [hxg] at h
        omega
    have hnodupA : (P.filter (fun e => decide (selectionSourceLabel e = gA))).Nodup :=
      hPn.filter _
    have hlenle := (List.subperm_of_subset hnodupA hsubA).length_le
    omega
  -- Step B: so the rest of the result comes from the other groups, and there
  -- is room for at most 2 such records if the total stays short of the limit.
  have hsplitres := filter_length_split (fun e => decide (selectionSourceLabel e = gA)) res
  have hNotA_le : (res.filter (fun e => !(decide (selectionSourceLabel e = gA)))).length ≤ 2 := by
    omega
  -- Step C: the two witnesses of distinct small groups must both be selected,
  -- each contributing exactly one record of its group.
  obtain ⟨x, hxE, y, hyE, hxA, hyA, hxy⟩ := hspan
  have hxP : x ∈ P := hPentries.mem_iff.2 hxE
  have hyP : y ∈ P := hPentries.mem_iff.2 hyE
  have hpairxy := filter_pair_le
    (fun e => decide (selectionSourceLabel e = selectionSourceLabel x))
    (fun e => decide (selectionSourceLabel e = selectionSourceLabel y))
    (fun e => !(decide (selectionSourceLabel e = gA)))
    (fun a ha hb => hxy ((of_decide_eq_true ha).symm.trans (of_decide_eq_true hb)))
    (fun a ha => by
      have ha2 : selectionSourceLabel a = selectionSourceLabel x := of_decide_eq_true ha
      simp [ha2, hxA])
    (fun a ha => by
      have ha2 : selectionSourceLabel a = selectionSourceLabel y := of_decide_eq_true ha
      simp [ha2, hyA])
    res
  have hgrcx : groupCount (selectionSourceLabel x) res
      = (res.filter (fun e => decide (selectionSourceLabel e = selectionSourceLabel x))).length :=
    rfl
  have hgrcy : groupCount (selectionSourceLabel y) res
      = (res.filter (fun e => decide (selectionSourceLabel e = selectionSourceLabel y))).length :=
    rfl
  have hxres : x ∈ res := by
    rcases hblocked hlt x hxP with h | h
    · exact h
    · exfalso
      rw [hitsSourceCap_eq_decide, decide_eq_true_eq] at h
      rcases hblocked hlt y hyP with h2 | h2
      · have hmy : y ∈ res.filter
            (fun e => decide (selectionSourceLabel e = selectionSourceLabel y)) :=
          List.mem_filter.2 ⟨h2, by simp⟩
        have hne0 := List.ne_nil_of_mem hmy
        have hpos := List.length_pos.2 hne0
        omega
      · rw [hitsSourceCap_eq_decide, decide_eq_true_eq] at h2
        omega
  have hmx : x ∈ res.filter
      (fun e => decide (selectionSourceLabel e = selectionSourceLabel x)) :=
    List.mem_filter.2 ⟨hxres, by simp⟩
  have hx1 : 1 ≤ (res.filter
      (fun e => decide (selectionSourceLabel e = selectionSourceLabel x))).length := by
    have hpos := List.length_pos.2 (List.ne_nil_of_mem hmx)
    omega
  have hyres : y ∈ res := by
    rcases hblocked hlt y hyP with h | h
    · exact h
    · exfalso
      rw [hitsSourceCap_eq_decide, decide_eq_true_eq] at h
      omega
  have hmy : y ∈ res.filter
      (fun e => decide (selectionSourceLabel e = selectionSourceLabel y)) :=
    List.mem_filter.2 ⟨hyres, by simp⟩
  have hy1 : 1 ≤ (res.filter
      (fun e => decide (selectionSourceLabel e = selectionSourceLabel y))).length := by
    have hpos := List.length_pos.2 (List.ne_nil_of_mem hmy)
    omega
  have hcx1 : (res.filter
      (fun e => decide (selectionSourceLabel e = selectionSourceLabel x))).length = 1 := by
    omega
  have hcy1 : (res.filter
      (fun e => decide (selectionSourceLabel e = selectionSourceLabel y))).length = 1 := by
    omega
  -- Step D: a third record outside the big group exists, and neither joining
  -- the result nor being cap-blocked is consistent with the counts above.
  have hxyne : x ≠ y := fun h => hxy (by rw [h])
  have hz : ∃ z, z ∈ P ∧ selectionSourceLabel z ≠ gA ∧ z ≠ x ∧ z ≠ y := by
    by_contra hno
    push_neg at hno
    have hsub2 : ∀ w ∈ P.filter (fun e => !(decide (selectionSourceLabel e = gA))),
        w ∈ ([x, y] : List FeedEntry) := by
      intro w hw
      have hw1 := (List.mem_filter.1 hw).1
      have hw2 : selectionSourceLabel w ≠ gA := by
        have h2 := (List.mem_filter.1 hw).2
        simpa using h2
      by_cases hwx : w = x
      · simp [hwx]
      · have hwy := hno w hw1 hw2 hwx
        simp [hwy]
    have hnodup2 := hPn.filter (fun e => !(decide (selectionSourceLabel e = gA)))
    have hlen2 := (List.subperm_of_subset hnodup2 hsub2).length_le
    have h2 : ([x, y] : List FeedEntry).length = 2 := rfl
    omega
  obtain ⟨z, hzP, hzA, hzx, hzy⟩ := hz
  rcases hblocked hlt z hzP with hzres | hzcap
  · have hsub3 : ∀ w ∈ ([x, y, z] : List FeedEntry),
        w ∈ res.filter (fun e => !(decide (selectionSourceLabel e = gA))) := by
      intro w hw
      rcases List.mem_cons.1 hw with rfl | hw
      · exact List.mem_filter.2 ⟨hxres, by simp [hxA]⟩
      rcases List.mem_cons.1 hw with rfl | hw
      · exact List.mem_filter.2 ⟨hyres, by simp [hyA]⟩
      rcases List.mem_cons.1 hw with rfl | hw
      · exact List.mem_filter.2 ⟨hzres, by simp [hzA]⟩
      · simp at hw
    have hnd3 : ([x, y, z] : List FeedEntry).Nodup := by
      refine List.nodup_cons.2 ⟨?_, List.nodup_cons.2 ⟨?_, List.nodup_singleton z⟩⟩
      · intro h
        rcases List.mem_cons.1 h with h | h
        · exact hxyne h
        · rw [List.mem_singleton] at h
          exact hzx h.symm
      · intro h
        rw [List.mem_singleton] at h
        exact hzy h.symm
    have hlen3 := (List.subperm_of_subset hnd3 hsub3).length_le
    have h3 : ([x, y, z] : List FeedEntry).length = 3 := rfl
    omega
  · rw [hitsSourceCap_eq_decide, decide_eq_true_eq] at hzcap
    have hgrcz : groupCount (selectionSourceLabel z) res
        = (res.filter
            (fun e => decide (selectionSourceLabel e = selectionSourceLabel z))).length :=
      rfl
    by_cases hzlx : selectionSourceLabel z = selectionSourceLabel x
    · rw [hzlx] at hzcap
      omega
    · by_cases hzly : selectionSourceLabel z = selectionSourceLabel y
      · rw [hzly] at hzcap
        omega
      · have htrip := filter_triple_le
          (fun e => decide (selectionSourceLabel e = selectionSourceLabel x))
          (fun e => decide (selectionSourceLabel e = selectionSourceLabel y))
          (fun e => decide (selectionSourceLabel e = selectionSourceLabel z))
          (fun e => !(decide (selectionSourceLabel e = gA)))
          (fun a ha hb => hxy ((of_decide_eq_true ha).symm.trans (of_decide_eq_true hb)))
          (fun a ha hb => hzlx ((of_decide_eq_true hb).symm.trans (of_decide_eq_true ha)))
          (fun a ha hb => hzly ((of_decide_eq_true hb).symm.trans (of_decide_eq_true ha)))
          (fun a ha => by
            have ha2 : selectionSourceLabel a = selectionSourceLabel x := of_decide_eq_true ha
            simp [ha2, hxA])
          (fun a ha => by
            have ha2 : selectionSourceLabel a = selectionSourceLabel y := of_decide_eq_true ha
            simp [ha2, hyA])
          (fun a ha => by
            have ha2 : selectionSourceLabel a = selectionSourceLabel z := of_decide_eq_true ha
            simp [ha2, hzA])
          res
        omega

/-- **C9 (counterexample)** The claim fails when the four records outside the
big group all share a single source group: with caps of 2 on both groups only
4 records can ever be selected, so the result cannot contain 5 records. The
near-duplicate gate is inert here (all hostnames distinct), so the shortfall
is forced purely by the source cap. -/
theorem source_cap_backfill_counterexample :
    (selectTopItems oraclesId (some 2) (Except.ok "1,2,3,4,5") c9bad "World" 5).map
      List.length ≠ Except.ok 5 := by
  rw [selectTopItems_ranker_ok oraclesId (some 2) "1,2,3,4,5" c9bad "World" 5
    (by decide) (by decide)]
  set meta := metaByLink oraclesId c9bad with hmetadef
  set ranked := rankEntries oraclesId "World" c9bad meta with hrankeddef
  have hperm : List.Perm ranked c9bad := rankEntries_perm oraclesId "World" c9bad meta
  have hrnodup : ranked.Nodup := hperm.symm.nodup (by decide)
  obtain ⟨hcn, hcsub⟩ := mapGetD_parse_nodup "1,2,3,4,5" 5 ranked hrnodup
  set chosen := (parseSelection "1,2,3,4,5" ranked.length 5).map
    (fun i => ranked.getD (i - 1) defaultEntry) with hchosendef
  obtain ⟨hPn, hPperm⟩ := chosenPool_perm chosen ranked hcn hcsub hrnodup
  set P := chosen ++ ranked.filter (fun e => e ∉ chosen) with hPdef
  have hPentries : List.Perm P c9bad := hPperm.trans hperm
  have hndpool : ∀ a ∈ c9bad, ∀ b ∈ c9bad,
      oraclesId.getHostname a.link = oraclesId.getHostname b.link → a = b := by decide
  have hndP : ∀ a ∈ P, ∀ b ∈ P,
      oraclesId.getHostname a.link = oraclesId.getHostname b.link → a = b := by
    intro a ha b hb
    exact hndpool a (hPentries.mem_iff.1 ha) b (hPentries.mem_iff.1 hb)
  obtain ⟨hle, hmemP, hresnodup, hcapf, hblocked⟩ :=
    applySelectionConstraints_spec oraclesId meta 5 (some 2) chosen ranked P
      hPdef.symm hPn hndP
  set res := applySelectionConstraints oraclesId chosen ranked meta 5 (some 2) with hresdef
  have hcap : ∀ g, groupCount g res ≤ 2 := hcapf 2 rfl
  have hall : ∀ e ∈ c9bad, selectionSourceLabel e = "A" ∨ selectionSourceLabel e = "B" := by
    decide
  have hlabel : ∀ e ∈ res, selectionSourceLabel e = "A" ∨ selectionSourceLabel e = "B" := by
    intro e he
    exact hall e (hPentries.mem_iff.1 (hmemP e he))
  have hsplit := filter_length_split (fun e => decide (selectionSourceLabel e = "A")) res
  have hfilteq : res.filter (fun e => !(decide (selectionSourceLabel e = "A"))) =
      res.filter (fun e => decide (selectionSourceLabel e = "B")) := by
    apply List.filter_congr
    intro e he
    rcases hlabel e he with h | h
    · simp [h]
    · simp [h]
  have hgA : groupCount "A" res
      = (res.filter (fun e => decide (selectionSourceLabel e = "A"))).length := rfl
  have hgB : groupCount "B" res
      = (res.filter (fun e => decide (selectionSourceLabel e = "B"))).length := rfl
  have hA2 := hcap "A"
  have hB2 := hcap "B"
  simp only [Except.map]
  intro hcontra
  have hlen5 : res.length = 5 := by
    injection hcontra
  rw [hfilteq] at hsplit
  omega

/-- **C9 (witness)** On a concrete ten-record pool whose six-record group `"A"`
coexists with groups `"B"` and `"C"`, selection with limit 5 and cap 2 returns
exactly five records with at most two from group `"A"`. -/
theorem source_cap_with_backfill_witness :
    ∃ res, selectTopItems oraclesId (some 2) (Except.ok "garbage") c9pool "World" 5 =
        Except.ok res ∧ groupCount "A" res ≤ 2 ∧ res.length = 5 :=
  source_cap_with_backfill oraclesId c9pool "World" "garbage" "A" (by decide) (by decide)
    (by decide) (by decide) (by decide) (by decide)

/-- **C8 (witness)** On a concrete three-record pool with distinct hostnames,
a malformed ranker response still yields exactly 2 records, identical to the
constraint pass applied to the quality-ranked order. -/
theorem malformed_ranker_tolerance_witness :
    selectTopItems oraclesId none (Except.ok "not a valid response") c8pool "World" 2 =
      Except.ok (applySelectionConstraints oraclesId
        (rankEntries oraclesId "World" c8pool (metaByLink oraclesId c8pool))
        (rankEntries oraclesId "World" c8pool (metaByLink oraclesId c8pool))
        (metaByLink oraclesId c8pool) 2 none) ∧
    (applySelectionConstraints oraclesId
        (rankEntries oraclesId "World" c8pool (metaByLink oraclesId c8pool))
        (rankEntries oraclesId "World" c8pool (metaByLink oraclesId c8pool))
        (metaByLink oraclesId c8pool) 2 none).length = 2 :=
  malformed_ranker_tolerance oraclesId c8pool "World" 2 (by decide) (by decide)
    (by decide) (by decide) (by decide)

end DailyPaper
